import Mathlib

/-!
Verification development for the `optionrs` derivatives-valuation library.

The Rust sources are shallowly embedded: `f64` values become real numbers
(exact arithmetic; the tridiagonal solver is additionally stated over `ℚ`
so that concrete systems evaluate), fallible functions return
`Except OptionError`, and trait objects become records of functions.
Every definition is translated from the corresponding Rust item, which is
named in its doc comment.  Definitions whose doc comment says
"spec wording" restate a sentence of the specification instead and are
compared with the source-derived definition by a refinement theorem.
-/

namespace OptionRS

/-- Error taxonomy from `src/errors.rs`.  The `NotSet` constructor is the
variant constructed at `src/core/monte_carlo.rs` line 262 (`errors.rs`
itself omits it from the enum, an internal inconsistency of the crate). -/
inductive OptionError where
  | InvalidParameter (msg : String)
  | ConvergenceError (msg : String)
  | CalculationError (msg : String)
  | ArbitrationViolation (msg : String)
  | IoError (msg : String)
  | NotImplemented (msg : String)
  | EmptyData
  | NotSet (msg : String)
  | Other (msg : String)
  deriving DecidableEq, Repr

/-- Market-parameter bundle from `src/params/common.rs` (`CommonParams`). -/
structure CommonParams where
  spot : ℝ
  riskFreeRate : ℝ
  volatility : ℝ
  dividendYield : ℝ
  timeToMaturity : ℝ

/-- Validating constructor `CommonParams::new` from `src/params/common.rs`. -/
noncomputable def CommonParams.new (spot riskFreeRate volatility dividendYield
    timeToMaturity : ℝ) : Except OptionError CommonParams :=
  if spot ≤ 0 then
    .error (.InvalidParameter "The price of underlying assert must be greater than 0")
  else if volatility < 0 then
    .error (.InvalidParameter "The volatility of underlying assert must be greater than 0")
  else if timeToMaturity < 0 then
    .error (.InvalidParameter "The time to maturity of underlying assert must be greater than 0")
  else
    .ok ⟨spot, riskFreeRate, volatility, dividendYield, timeToMaturity⟩

/-- Exercise-policy capability from `src/traits/exercise.rs` (`ExerciseRule`):
a decision function plus the `is_european` flag. -/
structure ExerciseRule where
  shouldExercise : ℝ → ℝ → ℝ → ℝ → Bool
  isEuropean : Bool

/-- `EuropeanExercise` from `src/traits/exercise.rs`: exercise only when the
remaining time is below `1e-9`. -/
noncomputable def europeanExercise : ExerciseRule :=
  ⟨fun time _ _ _ => decide (time < 1e-9), true⟩

/-- `AmericanExercise` from `src/traits/exercise.rs`: exercise whenever the
intrinsic value strictly exceeds the continuation value. -/
noncomputable def americanExercise : ExerciseRule :=
  ⟨fun _ _ intrinsic continuation => decide (continuation < intrinsic), false⟩

/-- Binomial engine configuration from `src/core/binomial.rs`. -/
structure BinomialEngine where
  steps : ℕ

/-- Validating constructor `BinomialEngine::new` (steps below 10 rejected). -/
def BinomialEngine.new (steps : ℕ) : Except OptionError BinomialEngine :=
  if steps < 10 then
    .error (.InvalidParameter "The steps of binomial Tree cannot be less than 10 steps.")
  else
    .ok ⟨steps⟩

/-- Lattice time step `dt = t / steps` from `BinomialEngine::price`. -/
noncomputable def crrDt (e : BinomialEngine) (prm : CommonParams) : ℝ :=
  prm.timeToMaturity / e.steps

/-- Up factor `u = exp(sigma * sqrt dt)` from `BinomialEngine::price`. -/
noncomputable def crrU (e : BinomialEngine) (prm : CommonParams) : ℝ :=
  Real.exp (prm.volatility * Real.sqrt (crrDt e prm))

/-- Down factor `d = 1 / u` from `BinomialEngine::price`. -/
noncomputable def crrD (e : BinomialEngine) (prm : CommonParams) : ℝ :=
  1 / crrU e prm

/-- Per-step discount `disc = exp(-r * dt)` from `BinomialEngine::price`. -/
noncomputable def crrDisc (e : BinomialEngine) (prm : CommonParams) : ℝ :=
  Real.exp (-prm.riskFreeRate * crrDt e prm)

/-- Risk-neutral probability `p = (exp((r-q)dt) - d) / (u - d)` from
`BinomialEngine::price`. -/
noncomputable def crrP (e : BinomialEngine) (prm : CommonParams) : ℝ :=
  (Real.exp ((prm.riskFreeRate - prm.dividendYield) * crrDt e prm) - crrD e prm) /
    (crrU e prm - crrD e prm)

/-- Pre-discounted up weight `p_u = p * disc` from `BinomialEngine::price`. -/
noncomputable def crrPu (e : BinomialEngine) (prm : CommonParams) : ℝ :=
  crrP e prm * crrDisc e prm

/-- Pre-discounted down weight `p_d = (1 - p) * disc` from `BinomialEngine::price`. -/
noncomputable def crrPd (e : BinomialEngine) (prm : CommonParams) : ℝ :=
  (1 - crrP e prm) * crrDisc e prm

/-- Terminal-layer spot of node `i`: the source starts the running value at
`s * d^steps` and multiplies by `u*u` once per node. -/
noncomputable def binomTermSpot (e : BinomialEngine) (prm : CommonParams) : ℕ → ℝ
  | 0 => prm.spot * crrD e prm ^ e.steps
  | i + 1 => binomTermSpot e prm i * (crrU e prm * crrU e prm)

/-- Backward-induction layers of `BinomialEngine::price`.  The first argument
counts layers above the terminal one, so `binomValues e prm payoff ex k i` is
the in-place array cell `i` after processing layer `j = steps - k`.  Each
sweep of the source loop reads only values written by the previous sweep, so
the in-place array update is exactly this layer recursion. -/
noncomputable def binomValues (e : BinomialEngine) (prm : CommonParams)
    (payoff : ℝ → ℝ) (ex : ExerciseRule) : ℕ → ℕ → ℝ
  | 0, i => payoff (binomTermSpot e prm i)
  | k + 1, i =>
    let j : ℕ := e.steps - (k + 1)
    let continuation := crrPu e prm * binomValues e prm payoff ex k (i + 1) +
      crrPd e prm * binomValues e prm payoff ex k i
    let sCurrent := prm.spot * crrU e prm ^ ((2 * i : ℤ) - (j : ℤ))
    let intrinsic := payoff sCurrent
    let remainingTime := prm.timeToMaturity - (j : ℝ) * crrDt e prm
    if ex.shouldExercise remainingTime sCurrent intrinsic continuation then intrinsic
    else continuation

/-- `BinomialEngine::price` from `src/core/binomial.rs`: return the intrinsic
payoff when `t <= 0`, otherwise the root of the backward induction. -/
noncomputable def BinomialEngine.price (e : BinomialEngine) (prm : CommonParams)
    (payoff : ℝ → ℝ) (ex : ExerciseRule) : ℝ :=
  if prm.timeToMaturity ≤ 0 then payoff prm.spot
  else binomValues e prm payoff ex e.steps 0

/-- Spec wording of the Cox-Ross-Rubinstein terminal layer: node `i` holds
`payoff (S * d^N * u^(2i))`. -/
noncomputable def crrSpecTerminal (e : BinomialEngine) (prm : CommonParams)
    (payoff : ℝ → ℝ) (i : ℕ) : ℝ :=
  payoff (prm.spot * crrD e prm ^ e.steps * crrU e prm ^ (2 * i))

/-- Spec wording of the backward induction: continuation is
`discount * (p * value[i+1] + (1-p) * value[i])`, the node spot is recomputed
as `S * u^(2i-j)`, and the exercise policy chooses intrinsic or continuation. -/
noncomputable def crrSpecValues (e : BinomialEngine) (prm : CommonParams)
    (payoff : ℝ → ℝ) (ex : ExerciseRule) : ℕ → ℕ → ℝ
  | 0, i => crrSpecTerminal e prm payoff i
  | k + 1, i =>
    let j : ℕ := e.steps - (k + 1)
    let continuation := crrDisc e prm *
      (crrP e prm * crrSpecValues e prm payoff ex k (i + 1) +
        (1 - crrP e prm) * crrSpecValues e prm payoff ex k i)
    let sCurrent := prm.spot * crrU e prm ^ ((2 * i : ℤ) - (j : ℤ))
    let intrinsic := payoff sCurrent
    let remainingTime := prm.timeToMaturity - (j : ℝ) * crrDt e prm
    if ex.shouldExercise remainingTime sCurrent intrinsic continuation then intrinsic
    else continuation

/-- Spec wording of the Cox-Ross-Rubinstein price: the root value of the
backward induction. -/
noncomputable def crrSpecPrice (e : BinomialEngine) (prm : CommonParams)
    (payoff : ℝ → ℝ) (ex : ExerciseRule) : ℝ :=
  crrSpecValues e prm payoff ex e.steps 0

/-- Analytic payoff-kind tags from `src/traits/payoff.rs` (`AnalyticPayoffType`). -/
inductive AnalyticPayoffType where
  | VanillaCall
  | VanillaPut
  | CashOrNothingCall
  | CashOrNothingPut
  | AssertOrNothingCall
  | AssertOrNothingPut
  | DownAndOutCall
  | UpAndOutCall
  deriving DecidableEq, Repr

/-- Payoff trait objects from `src/traits/payoff.rs`, as consumed by the
analytic engine: the concrete implementors `CallPayoff`, `PutPayoff` and
`CashOrNothingCallPayoff`, plus `custom` for any other implementor of the
open trait (an arbitrary `payoff` function together with its declared
`analytic_type`). -/
inductive PayoffModel where
  | call (strike : ℝ)
  | put (strike : ℝ)
  | cashOrNothingCall (strike payout : ℝ)
  | custom (eval : ℝ → ℝ) (atype : Option AnalyticPayoffType)

/-- The `Payoff::payoff` method of each variant (`src/traits/payoff.rs`). -/
noncomputable def PayoffModel.eval : PayoffModel → ℝ → ℝ
  | .call strike, x => max (x - strike) 0
  | .put strike, x => max (strike - x) 0
  | .cashOrNothingCall strike payout, x => if strike ≤ x then payout else 0
  | .custom f _, x => f x

/-- The `Payoff::analytic_type` method of each variant. -/
def PayoffModel.analyticType : PayoffModel → Option AnalyticPayoffType
  | .call _ => some .VanillaCall
  | .put _ => some .VanillaPut
  | .cashOrNothingCall _ _ => some .CashOrNothingCall
  | .custom _ a => a

/-- Analytic-calculator capability from `src/traits/engine.rs`
(`AnalyticCalculator`): supported kinds plus a pure pricing function. -/
structure AnalyticCalculator where
  supportedTypes : List AnalyticPayoffType
  calculate : CommonParams → PayoffModel → Except OptionError ℝ

/-- Analytic engine state from `src/core/analytic/engine.rs`: the registry
mapping payoff kind to calculator (a `HashMap` in the source). -/
structure AnalyticEngine where
  calculators : AnalyticPayoffType → Option AnalyticCalculator

/-- One `HashMap::insert` of `AnalyticEngine::register_calculator`. -/
def insertCalculator (m : AnalyticPayoffType → Option AnalyticCalculator)
    (typ : AnalyticPayoffType) (c : AnalyticCalculator) :
    AnalyticPayoffType → Option AnalyticCalculator :=
  fun t => if t = typ then some c else m t

/-- `AnalyticEngine::register_calculator`: insert the calculator for every
kind it supports. -/
def AnalyticEngine.registerCalculator (e : AnalyticEngine) (c : AnalyticCalculator) :
    AnalyticEngine :=
  ⟨c.supportedTypes.foldl (fun m typ => insertCalculator m typ c) e.calculators⟩

/-- `AnalyticEngine::remove_calculator`: drop the mapping for one kind. -/
def AnalyticEngine.removeCalculator (e : AnalyticEngine) (typ : AnalyticPayoffType) :
    AnalyticEngine :=
  ⟨fun t => if t = typ then none else e.calculators t⟩

/-- `AnalyticEngine::get_calculator`. -/
def AnalyticEngine.getCalculator (e : AnalyticEngine) (typ : AnalyticPayoffType) :
    Option AnalyticCalculator :=
  e.calculators typ

/-- `AnalyticEngine::price` from `src/core/analytic/engine.rs`: reject
non-European exercise with `InvalidParameter`, reject a payoff without a
declared analytic kind with `InvalidParameter`, reject a kind without a
registered calculator with `NotImplemented`, else delegate to the calculator. -/
def AnalyticEngine.price (e : AnalyticEngine) (prm : CommonParams)
    (payoff : PayoffModel) (ex : ExerciseRule) : Except OptionError ℝ :=
  if ex.isEuropean = false then
    .error (.InvalidParameter "The pricing of analytical solutions only support European rules")
  else
    match payoff.analyticType with
    | none => .error (.InvalidParameter "Analytical solution do not support this type of option")
    | some typ =>
      match e.getCalculator typ with
      | none => .error (.NotImplemented "Not found calculator")
      | some c => c.calculate prm payoff

/-- `calculate_d1_d2` from `src/utils/statistics.rs` (validation and the d1/d2
formulas, exactly as written there). -/
noncomputable def calculateD1D2 (spot strike riskFreeRate dividendYield volatility
    timeToMaturity : ℝ) : Except OptionError (ℝ × ℝ) :=
  if spot ≤ 0 then .error (.InvalidParameter "Spot must be greater than zero.")
  else if strike ≤ 0 then .error (.InvalidParameter "Strike must be greater than zero.")
  else if volatility ≤ 0 then .error (.InvalidParameter "Volatility must be greater than zero.")
  else if timeToMaturity < 0 then
    .error (.InvalidParameter "Time to maturity cannot be negative.")
  else if timeToMaturity = 0 then
    .error (.InvalidParameter "When the expiration time is 0,there is no analytic solution (return intrinsic value directly)")
  else
    let lnSk := Real.log (spot / strike)
    let sigmaSqrtT := volatility * Real.sqrt timeToMaturity
    let d1 := (lnSk + (riskFreeRate - dividendYield + 0.5 * volatility ^ 2 * timeToMaturity)) /
      sigmaSqrtT
    .ok (d1, d1 - sigmaSqrtT)

/-- `VanillaCalculator::calculate` from
`src/core/analytic/calculators/vanilla.rs`, with the standard-normal CDF of
the external `statrs` crate abstracted as the parameter `Φ`.  At zero
maturity it returns the intrinsic payoff before any downcast. -/
noncomputable def vanillaCalculate (Φ : ℝ → ℝ) (prm : CommonParams)
    (payoff : PayoffModel) : Except OptionError ℝ :=
  if prm.timeToMaturity = 0 then .ok (payoff.eval prm.spot)
  else
    match payoff with
    | .call strike =>
      match calculateD1D2 prm.spot strike prm.riskFreeRate prm.dividendYield
          prm.volatility prm.timeToMaturity with
      | .error e => .error e
      | .ok (d1, d2) =>
        .ok (prm.spot * Real.exp (-prm.dividendYield * prm.timeToMaturity) * Φ d1 -
          strike * Real.exp (-prm.riskFreeRate * prm.timeToMaturity) * Φ d2)
    | .put strike =>
      match calculateD1D2 prm.spot strike prm.riskFreeRate prm.dividendYield
          prm.volatility prm.timeToMaturity with
      | .error e => .error e
      | .ok (d1, d2) =>
        .ok (strike * Real.exp (-prm.riskFreeRate * prm.timeToMaturity) * Φ (-d2) -
          prm.spot * Real.exp (-prm.dividendYield * prm.timeToMaturity) * Φ (-d1))
    | _ => .error (.InvalidParameter "Vanilla calculator only support vanilla call/put option")

/-- `BinaryCalculator::calculate` from
`src/core/analytic/calculators/binary.rs`, with the normal CDF abstracted as
`Φ`.  At zero maturity it returns the intrinsic payoff before any downcast. -/
noncomputable def binaryCalculate (Φ : ℝ → ℝ) (prm : CommonParams)
    (payoff : PayoffModel) : Except OptionError ℝ :=
  if prm.timeToMaturity = 0 then .ok (payoff.eval prm.spot)
  else
    match payoff with
    | .cashOrNothingCall strike payout =>
      if payout < 0 then
        .error (.InvalidParameter "The payout of binary call option must be greater than 0")
      else
        match calculateD1D2 prm.spot strike prm.riskFreeRate prm.dividendYield
            prm.volatility prm.timeToMaturity with
        | .error e => .error e
        | .ok (_, d2) =>
          .ok (max (payout * Real.exp (-prm.riskFreeRate * prm.timeToMaturity) * Φ d2) 0)
    | _ => .error (.NotImplemented "Now only support cash-or-nothing call option.")

/-- Concrete calculator used in witnesses: it supports the vanilla-call kind
and prices every payoff at the spot. -/
def spotCalculator : AnalyticCalculator :=
  ⟨[.VanillaCall], fun prm _ => .ok prm.spot⟩

/-- Concrete engine state used in witnesses: only the vanilla-call kind is
registered. -/
def vanillaOnlyEngine : AnalyticEngine :=
  ⟨fun t => if t = .VanillaCall then some spotCalculator else none⟩

/-- Stochastic-process capability from `src/traits/process.rs`, as the Monte
Carlo engine consumes it: every iteration clones the process and calls
`init_rng_with_seed(seed)` before simulating, so a path (or antithetic pair)
is a deterministic function of that seed. -/
structure StochasticProcess where
  simulatePath : ℕ → ℝ → ℝ → ℕ → Except OptionError (List ℝ)
  simulateAntitheticPath : ℕ → ℝ → ℝ → ℕ → Except OptionError (List ℝ × List ℝ)

/-- Monte Carlo engine state from `src/core/monte_carlo.rs`. -/
structure MonteCarloEngine where
  numSimulations : ℕ
  timeSteps : ℕ
  process : Option StochasticProcess
  useAntithetic : Bool
  useParallel : Bool
  seed : ℕ

/-- `MonteCarloEngine::new`: rejects fewer than 1000 simulations and zero time
steps, and keeps parallel mode only above 1000 simulations. -/
def MonteCarloEngine.new (numSimulations timeSteps : ℕ)
    (process : Option StochasticProcess) (useAntithetic useParallel : Bool)
    (seed : ℕ) : Except OptionError MonteCarloEngine :=
  if numSimulations < 1000 then
    .error (.InvalidParameter "Simulation number cannot be below 1000")
  else if timeSteps < 1 then
    .error (.InvalidParameter "Time steps must be over 0")
  else
    .ok ⟨numSimulations, timeSteps, process,
      useAntithetic, useParallel && decide (1000 < numSimulations), seed⟩

/-- One iteration of `calculate_total_payoff_serial`: the payoff contribution
obtained from the `i`-th `next_u64` draw of the per-call master generator
(abstracted as `draws`): one antithetic pair or one plain path. -/
def mcIterPayoff (p : StochasticProcess) (anti : Bool) (draws : ℕ → ℕ)
    (s0 t : ℝ) (steps : ℕ) (pp : List ℝ → ℝ) (i : ℕ) : Except OptionError ℝ :=
  if anti then
    (p.simulateAntitheticPath (draws i) s0 t steps).map fun pr => pp pr.1 + pp pr.2
  else
    (p.simulatePath (draws i) s0 t steps).map pp

/-- The `total_payoff` accumulation loop of `calculate_total_payoff_serial`,
with the `?` early return of each iteration. -/
def mcAccum (f : ℕ → Except OptionError ℝ) : ℕ → Except OptionError ℝ
  | 0 => .ok 0
  | k + 1 => do
    let s ← mcAccum f k
    let v ← f k
    pure (s + v)

/-- `MonteCarloEngine::calculate_total_payoff_serial` from
`src/core/monte_carlo.rs`: `num_simulations / 2` antithetic iterations or
`num_simulations` plain iterations. -/
def mcTotalSerial (e : MonteCarloEngine) (p : StochasticProcess) (draws : ℕ → ℕ)
    (s0 t : ℝ) (pp : List ℝ → ℝ) : Except OptionError ℝ :=
  mcAccum (mcIterPayoff p e.useAntithetic draws s0 t e.timeSteps pp)
    (if e.useAntithetic then e.numSimulations / 2 else e.numSimulations)

/-- `MonteCarloEngine::calculate_total_payoff_parallel`: the same per-seed
payoff values, with a failed simulation collapsed to `0.0` by `unwrap_or`, and
the results summed. -/
noncomputable def mcTotalParallel (e : MonteCarloEngine) (p : StochasticProcess)
    (draws : ℕ → ℕ) (s0 t : ℝ) (pp : List ℝ → ℝ) : Except OptionError ℝ :=
  .ok (Finset.sum
    (Finset.range (if e.useAntithetic then e.numSimulations / 2 else e.numSimulations))
    fun i =>
      match mcIterPayoff p e.useAntithetic draws s0 t e.timeSteps pp i with
      | .ok v => v
      | .error _ => 0)

/-- `MonteCarloEngine::calculate_price` from `src/core/monte_carlo.rs`: fail
`NotSet` without a process, otherwise total the per-path payoffs (serially or
in parallel), divide by the simulation count and discount at the risk-free
rate over the horizon. -/
noncomputable def MonteCarloEngine.calculatePrice (e : MonteCarloEngine)
    (draws : ℕ → ℕ) (prm : CommonParams) (pp : List ℝ → ℝ) :
    Except OptionError ℝ :=
  match e.process with
  | none => .error (.NotSet "Process not set")
  | some p =>
    Except.bind
      (if e.useParallel then mcTotalParallel e p draws prm.spot prm.timeToMaturity pp
       else mcTotalSerial e p draws prm.spot prm.timeToMaturity pp)
      fun total =>
        .ok (total / e.numSimulations * Real.exp (-prm.riskFreeRate * prm.timeToMaturity))

/-- Spec wording for C7: the per-path payoffs accumulated by `k` antithetic
iterations, two paths per pair. -/
def mcPayoffTermsAnti (pp : List ℝ → ℝ) (pairF : ℕ → List ℝ × List ℝ) : ℕ → List ℝ
  | 0 => []
  | k + 1 => mcPayoffTermsAnti pp pairF k ++ [pp (pairF k).1, pp (pairF k).2]

/-- Spec wording for C7: the per-path payoffs accumulated by `k` plain
iterations, one path each. -/
def mcPayoffTermsPlain (pp : List ℝ → ℝ) (pathF : ℕ → List ℝ) : ℕ → List ℝ
  | 0 => []
  | k + 1 => mcPayoffTermsPlain pp pathF k ++ [pp (pathF k)]

/-- Concrete process used in counterexamples and witnesses: every path is the
single-point path at the initial price. -/
def constPairProcess : StochasticProcess :=
  ⟨fun _ s0 _ _ => .ok [s0], fun _ s0 _ _ => .ok ([s0], [s0])⟩

/-- Numerical-zero pivot threshold `1e-12` of `ThomasSolver`
(`src/utils/linear_algebra.rs`).  The solver is stated over `ℚ` — the exact
arithmetic the round-trip property quantifies over. -/
def thomasEps {α : Type} [LinearOrderedField α] : α := 1e-12

/-- Forward elimination of `ThomasSolver`: `thomasCpDp a b c d n i` is the
pair `(c_prime[i], d_prime[i])`.  Division by a small pivot never happens on
the control path that uses these values, because the solver errors at the
first pivot below the threshold. -/
def thomasCpDp {α : Type} [LinearOrderedField α] (a b c d : ℕ → α) (n : ℕ) : ℕ → α × α
  | 0 => (c 0 / b 0, d 0 / b 0)
  | i + 1 =>
    let prev := thomasCpDp a b c d n i
    let denom := b (i + 1) - a i * prev.1
    (if i + 1 < n - 1 then c (i + 1) / denom else 0,
      (d (i + 1) - a i * prev.2) / denom)

/-- The pivot met at step `i` of forward elimination: `b[0]` at step 0, the
loop's `denominator` afterwards. -/
def thomasDenom {α : Type} [LinearOrderedField α] (a b c d : ℕ → α) (n : ℕ) : ℕ → α
  | 0 => b 0
  | i + 1 => b (i + 1) - a i * (thomasCpDp a b c d n i).1

/-- Back substitution of `ThomasSolver`, counted from the last unknown:
`thomasY cp dp n j` is `x[n-1-j]`. -/
def thomasY {α : Type} [LinearOrderedField α] (cp dp : ℕ → α) (n : ℕ) : ℕ → α
  | 0 => dp (n - 1)
  | j + 1 => dp (n - 1 - (j + 1)) - cp (n - 1 - (j + 1)) * thomasY cp dp n j

/-- Solution component `x[i]` produced by the back substitution. -/
def thomasX {α : Type} [LinearOrderedField α] (cp dp : ℕ → α) (n i : ℕ) : α :=
  thomasY cp dp n (n - 1 - i)

/-- `ThomasSolver` from `src/utils/linear_algebra.rs`: empty system, dimension
check, the `n = 1` short cut, forward elimination with the pivot guard, then
back substitution.  The source raises `CalculationError` at the first pivot
whose magnitude falls below the threshold; the model tests the pivots of the
elimination up front, which agrees with the source because the eliminated
prefix before the first bad pivot is identical. -/
def ThomasSolver {α : Type} [LinearOrderedField α] (a b c d : List α) :
    Except OptionError (List α) :=
  let n := d.length
  if n = 0 then .ok []
  else if b.length ≠ n ∨ a.length ≠ n - 1 ∨ c.length ≠ n - 1 then
    .error (.InvalidParameter "Thamos algorithm: the input dim of array not match")
  else
    let aF := fun i => a.getD i 0
    let bF := fun i => b.getD i 0
    let cF := fun i => c.getD i 0
    let dF := fun i => d.getD i 0
    if n = 1 then
      if |bF 0| < thomasEps then .error (.CalculationError "Matrix is singular")
      else .ok [dF 0 / bF 0]
    else if ∀ i ∈ Finset.range n, thomasEps ≤ |thomasDenom aF bF cF dF n i| then
      .ok (List.ofFn fun i : Fin n =>
        thomasX (fun j => (thomasCpDp aF bF cF dF n j).1)
          (fun j => (thomasCpDp aF bF cF dF n j).2) n i)
    else
      .error (.CalculationError "Thomas algorithm calculate failure: principal element is zero")

/-- Row `i` of the tridiagonal matrix-vector product for the system
`(a, b, c)` of dimension `n`: the quantity the round-trip property compares
with the right-hand side. -/
def tridiagApply {α : Type} [LinearOrderedField α] (a b c x : ℕ → α) (n i : ℕ) : α :=
  (if 1 ≤ i then a (i - 1) * x (i - 1) else 0) + b i * x i +
    (if i < n - 1 then c i * x (i + 1) else 0)

/-- `european_call` from `src/black_scholes/mod.rs`, with the standard-normal
CDF of the external `statrs` crate abstracted as the parameter `Φ`: intrinsic
value at `T <= 0`, discounted intrinsic at zero volatility, otherwise the
Black-Scholes formula. -/
noncomputable def bsEuropeanCall (Φ : ℝ → ℝ) (S K r sigma q T : ℝ) : ℝ :=
  if T ≤ 0 then max (S - K) 0
  else if sigma = 0 then max (S * Real.exp (-q * T) - K * Real.exp (-r * T)) 0
  else
    let sqrtT := Real.sqrt T
    let d1 := (Real.log S - Real.log K + (r - q + 0.5 * sigma ^ 2) * T) / (sigma * sqrtT)
    let d2 := d1 - sigma * sqrtT
    S * Real.exp (-q * T) * Φ d1 - K * Real.exp (-r * T) * Φ d2

/-- The bracket-doubling loop of `black_scholes_call_implied_vol`
(`src/black_scholes/mod.rs`): while `f upper < 0`, double `upper` and give up
with the convergence-failure message once it exceeds `100.0`.  The fuel
argument is only a termination bound: the source loop runs at most 7 doublings
from `upper = 1` before the `100.0` guard fires, so fuel 8 never runs out
(`none` marks exhausted fuel and is proved unreachable). -/
noncomputable def ivBracket (f : ℝ → ℝ) : ℕ → ℝ → Option (Except String ℝ)
  | 0, _ => none
  | fuel + 1, upper =>
    if f upper < 0 then
      (if 100 < upper * 2 then
        some (.error "Unable to find valid upper bound for volatility.")
      else ivBracket f fuel (upper * 2))
    else some (.ok upper)

/-- The bisection loop of `black_scholes_call_implied_vol`: at most `max_iter`
passes (the fuel), narrowing `[lower, upper]` while its width exceeds the
tolerance; `fupper` is the bracket value computed once before the loop and
never updated inside it, exactly as in the source.  The source's final
`iter > max_iter` check can never fire, so the loop always returns `guess`. -/
noncomputable def ivBisect (f : ℝ → ℝ) (fupper tol : ℝ) : ℕ → ℝ → ℝ → ℝ → ℝ
  | 0, _, _, guess => guess
  | fuel + 1, lower, upper, guess =>
    if tol < upper - lower then
      (if fupper * f guess < 0 then
        ivBisect f fupper tol fuel guess upper ((upper + guess) / 2)
      else
        ivBisect f fupper tol fuel lower guess ((guess + lower) / 2))
    else guess

/-- `black_scholes_call_implied_vol` from `src/black_scholes/mod.rs`:
arbitrage-bound check, bracket doubling from `upper = 1.0`, then bisection
with tolerance `1e-6` and iteration budget `1000` starting from `lower = 0`.
(The source computes `flower` but never uses it.) -/
noncomputable def blackScholesCallImpliedVol (Φ : ℝ → ℝ)
    (S K r q T CallPrice : ℝ) : Option (Except String ℝ) :=
  if CallPrice < S * Real.exp (-q * T) - K * Real.exp (-r * T) then
    some (.error "Option price violates the arbitrage bound.")
  else
    let f := fun sigma => bsEuropeanCall Φ S K r sigma q T - CallPrice
    match ivBracket f 8 1 with
    | none => none
    | some (.error e) => some (.error e)
    | some (.ok upper) =>
      some (.ok (ivBisect f (f upper) 1e-6 1000 0 upper ((upper + 0) / 2)))

/-- PDE scheme selector from `src/core/pde/engine.rs` (`FiniteDifferenceMethod`). -/
inductive FiniteDifferenceMethod where
  | Explicit
  | Implicit
  | CrankNicolson
  deriving DecidableEq

/-- Boundary-condition capability from `src/traits/engine.rs`
(`BoundaryCondition`): fallible lower/upper boundary values at a remaining
time (the engine never calls `final_condition`). -/
structure BoundaryCondition where
  lowerBoundary : ℝ → Except OptionError ℝ
  upperBoundary : ℝ → Except OptionError ℝ

/-- PDE engine configuration from `src/core/pde/engine.rs`. -/
structure PDEEngine where
  xSteps : ℕ
  tSteps : ℕ
  method : FiniteDifferenceMethod
  useLogSpace : Bool
  boundaryCondition : BoundaryCondition

/-- Validating constructor `PDEEngine::new`. -/
def PDEEngine.new (xSteps tSteps : ℕ) (method : FiniteDifferenceMethod)
    (useLogSpace : Bool) (bc : BoundaryCondition) : Except OptionError PDEEngine :=
  if xSteps < 50 ∨ tSteps < 50 then
    .error (.InvalidParameter "The steps of PDE grids cannot be less than 50 steps")
  else if useLogSpace ∧ (xSteps < 100 ∨ tSteps < 100) then
    .error (.InvalidParameter "Log space method recommends steps greater than 100")
  else
    .ok ⟨xSteps, tSteps, method, useLogSpace, bc⟩

/-- `ExplicitMethod::step_back` from `src/core/pde/methods/explicit.rs`,
producing the new layer from the next one.  The boundary nodes keep the values
the engine wrote (passed here as `lower`/`upper`).  The node spot is computed
from `s_min + i * dt` — the source uses the time step `dt` where the space
step `dx` belongs (line 44), and the model reproduces that slip. -/
noncomputable def explicitStepBack (prm : CommonParams) (payoff : ℝ → ℝ)
    (ex : ExerciseRule) (sMin dx dt currentT : ℝ) (useLog : Bool)
    (lower upper : ℝ) (next : List ℝ) : Except OptionError (List ℝ) :=
  let n := next.length
  let r := prm.riskFreeRate
  let q := prm.dividendYield
  let sigma := prm.volatility
  let remainTime := prm.timeToMaturity - currentT
  let logDrift := r - q + 0.5 * sigma ^ 2
  let logDiffusion := 0.5 * sigma ^ 2
  let toPrice : ℝ → ℝ := if useLog then Real.exp else id
  .ok (List.ofFn fun idx : Fin n =>
    let i := (idx : ℕ)
    if 1 ≤ i ∧ i < n - 1 then
      let sSpace := sMin + i * dt
      let s := toPrice sSpace
      let deltaX := (next.getD (i + 1) 0 - next.getD (i - 1) 0) / (2 * dx)
      let gammaX := (next.getD (i + 1) 0 - 2 * next.getD i 0 + next.getD (i - 1) 0) /
        (dx * dx)
      let value :=
        if useLog then
          next.getD i 0 -
            (r * next.getD i 0 - logDrift * deltaX - logDiffusion * gammaX) * dt
        else
          next.getD i 0 -
            (r * next.getD i 0 - (r - q) * s * deltaX -
              0.5 * sigma ^ 2 * s ^ 2 * gammaX) * dt
      let intrinsic := payoff s
      if ex.shouldExercise remainTime s intrinsic value then intrinsic else value
    else if i = 0 then lower
    else upper)

/-- `ImplicitMethod::step_back` from `src/core/pde/methods/implicit.rs`:
boundary rows of the tridiagonal system pin the engine-written edge values
(`lower`/`upper`), interior rows hold the implicit coefficients; after the
solve, interior nodes get the early-exercise check and boundary nodes take the
solved (pinned) values unmodified. -/
noncomputable def implicitStepBack (prm : CommonParams) (payoff : ℝ → ℝ)
    (ex : ExerciseRule) (sMin dx dt currentT : ℝ) (useLog : Bool)
    (lower upper : ℝ) (next : List ℝ) : Except OptionError (List ℝ) :=
  let n := next.length
  let r := prm.riskFreeRate
  let q := prm.dividendYield
  let sigma := prm.volatility
  let remainingTime := prm.timeToMaturity - currentT
  let toPrice : ℝ → ℝ := if useLog then Real.exp else id
  let alphaAt := fun s : ℝ =>
    if useLog then 0.5 * sigma ^ 2 * dt / dx ^ 2 else 0.5 * sigma ^ 2 * s ^ 2 * dt / dx ^ 2
  let betaAt := fun s : ℝ =>
    if useLog then (r - q - 0.5 * sigma ^ 2) * dt / (2 * dx) else (r - q) * s * dt / (2 * dx)
  let aL : List ℝ := List.ofFn fun j : Fin (n - 1) =>
    if (j : ℕ) + 1 < n - 1 then
      -alphaAt (toPrice (sMin + ((j : ℕ) + 1) * dx)) +
        betaAt (toPrice (sMin + ((j : ℕ) + 1) * dx))
    else 0
  let bL : List ℝ := List.ofFn fun i : Fin n =>
    if 1 ≤ (i : ℕ) ∧ (i : ℕ) < n - 1 then
      1 + 2 * alphaAt (toPrice (sMin + (i : ℕ) * dx)) + r * dt
    else 1
  let cL : List ℝ := List.ofFn fun j : Fin (n - 1) =>
    if 1 ≤ (j : ℕ) then
      -alphaAt (toPrice (sMin + (j : ℕ) * dx)) - betaAt (toPrice (sMin + (j : ℕ) * dx))
    else 0
  let rhsL : List ℝ := List.ofFn fun i : Fin n =>
    if (i : ℕ) = 0 then lower
    else if (i : ℕ) < n - 1 then next.getD (i : ℕ) 0
    else upper
  match ThomasSolver aL bL cL rhsL with
  | .error err => .error err
  | .ok sol =>
    .ok (List.ofFn fun idx : Fin n =>
      let i := (idx : ℕ)
      let s := toPrice (sMin + i * dx)
      let intrinsic := payoff s
      if 1 ≤ i ∧ i < n - 1 then
        if ex.shouldExercise remainingTime s intrinsic (sol.getD i 0) then intrinsic
        else sol.getD i 0
      else sol.getD i 0)

/-- `CrankNicolsonMethod::step_back` from
`src/core/pde/methods/crank_nicolson.rs`.  The source copies the next layer's
edge values over both boundary nodes (overwriting the boundary condition the
engine just wrote) and builds `a`, `b`, `c` and `rhs` all of length `n` before
handing them to `ThomasSolver`, which expects off-diagonals of length
`n - 1`. -/
noncomputable def crankNicolsonStepBack (prm : CommonParams) (payoff : ℝ → ℝ)
    (ex : ExerciseRule) (sMin dx dt currentT : ℝ) (useLog : Bool)
    (lower upper : ℝ) (next : List ℝ) : Except OptionError (List ℝ) :=
  let n := next.length
  let s0 := prm.spot
  let r := prm.riskFreeRate
  let q := prm.dividendYield
  let sigma := prm.volatility
  let remainingTime := prm.timeToMaturity - currentT
  let toPrice : ℝ → ℝ := if useLog then Real.exp else id
  let alphaAt := fun s : ℝ =>
    if useLog then 0.5 * sigma ^ 2 * dt / (dx * dx)
    else 0.5 * sigma ^ 2 * s ^ 2 * dt / (dx * dx)
  let betaAt := fun s : ℝ =>
    if useLog then (r - q + 0.5 * sigma ^ 2) * dt / (2 * dx)
    else (r - q) * s * dt / (2 * dx)
  let alpha0 :=
    if useLog then 0.5 * sigma ^ 2 * dt / (dx * dx)
    else 0.5 * sigma ^ 2 * (0.1 * s0) ^ 2 * dt / (dx * dx)
  let alphaN :=
    if useLog then 0.5 * sigma ^ 2 * dt / (dx * dx)
    else 0.5 * sigma ^ 2 * (2 * s0) ^ 2 * dt / (dx * dx)
  let aL : List ℝ := List.ofFn fun i : Fin n =>
    if 1 ≤ (i : ℕ) ∧ (i : ℕ) < n - 1 then
      -0.5 * alphaAt (toPrice (sMin + (i : ℕ) * dx)) +
        0.5 * betaAt (toPrice (sMin + (i : ℕ) * dx))
    else 0
  let bL : List ℝ := List.ofFn fun i : Fin n =>
    if 1 ≤ (i : ℕ) ∧ (i : ℕ) < n - 1 then
      1 + alphaAt (toPrice (sMin + (i : ℕ) * dx)) + 0.5 * r * dt
    else if (i : ℕ) = 0 then 1 + alpha0 + 0.5 * r * dt
    else 1 + alphaN + 0.5 * r * dt
  let cL : List ℝ := List.ofFn fun i : Fin n =>
    if 1 ≤ (i : ℕ) ∧ (i : ℕ) < n - 1 then
      -0.5 * alphaAt (toPrice (sMin + (i : ℕ) * dx)) -
        0.5 * betaAt (toPrice (sMin + (i : ℕ) * dx))
    else 0
  let rhsL : List ℝ := List.ofFn fun i : Fin n =>
    if 1 ≤ (i : ℕ) ∧ (i : ℕ) < n - 1 then
      -(-0.5 * alphaAt (toPrice (sMin + (i : ℕ) * dx)) +
          0.5 * betaAt (toPrice (sMin + (i : ℕ) * dx))) * next.getD ((i : ℕ) - 1) 0 +
        (2 - (1 + alphaAt (toPrice (sMin + (i : ℕ) * dx)) + 0.5 * r * dt)) *
          next.getD (i : ℕ) 0 -
        (-0.5 * alphaAt (toPrice (sMin + (i : ℕ) * dx)) -
          0.5 * betaAt (toPrice (sMin + (i : ℕ) * dx))) * next.getD ((i : ℕ) + 1) 0
    else if (i : ℕ) = 0 then (1 - alpha0 - 0.5 * r * dt) * next.getD 0 0
    else (1 - alphaN - 0.5 * r * dt) * next.getD (n - 1) 0
  match ThomasSolver aL bL cL rhsL with
  | .error err => .error err
  | .ok sol =>
    .ok (List.ofFn fun idx : Fin n =>
      let i := (idx : ℕ)
      if 1 ≤ i ∧ i < n - 1 then
        let s := toPrice (sMin + i * dx)
        let intrinsic := payoff s
        if ex.shouldExercise remainingTime s intrinsic (sol.getD i 0) then intrinsic
        else sol.getD i 0
      else next.getD i 0)

/-- One backward layer of `PDEEngine::calculate_price`: evaluate the boundary
condition at the remaining time, then delegate to the configured scheme. -/
noncomputable def pdeStepAt (e : PDEEngine) (prm : CommonParams) (payoff : ℝ → ℝ)
    (ex : ExerciseRule) (sMin dx dt : ℝ) (nIdx : ℕ) (next : List ℝ) :
    Except OptionError (List ℝ) :=
  let currentT := nIdx * dt
  let remainingTime := prm.timeToMaturity - currentT
  match e.boundaryCondition.lowerBoundary remainingTime with
  | .error err => .error err
  | .ok lower =>
    match e.boundaryCondition.upperBoundary remainingTime with
    | .error err => .error err
    | .ok upper =>
      match e.method with
      | .Explicit =>
        explicitStepBack prm payoff ex sMin dx dt currentT e.useLogSpace lower upper next
      | .Implicit =>
        implicitStepBack prm payoff ex sMin dx dt currentT e.useLogSpace lower upper next
      | .CrankNicolson =>
        crankNicolsonStepBack prm payoff ex sMin dx dt currentT e.useLogSpace lower upper
          next

/-- The backward time loop of `PDEEngine::calculate_price`: apply the step at
layer indices `k - 1, ..., 0`, propagating the first error. -/
noncomputable def pdeBackward (stepF : ℕ → List ℝ → Except OptionError (List ℝ)) :
    ℕ → List ℝ → Except OptionError (List ℝ)
  | 0, layer => .ok layer
  | k + 1, layer =>
    match stepF k layer with
    | .error e => .error e
    | .ok next => pdeBackward stepF k next

/-- `linear_interpolate` from `src/utils/math.rs`; the float-to-usize cast of
the floored index saturates at zero in Rust, which `Int.toNat` reproduces. -/
noncomputable def linearInterpolate (x xMin dx : ℝ) (grid : List ℝ) :
    Except OptionError ℝ :=
  if grid.isEmpty then .error (.InvalidParameter "Grid is empty")
  else
    let iFloat := (x - xMin) / dx
    let iFloor : ℕ := (⌊iFloat⌋).toNat
    if grid.length - 1 ≤ iFloor then .ok (grid.getD (grid.length - 1) 0)
    else if iFloat < 0 then .ok (grid.getD 0 0)
    else
      let weight := iFloat - (iFloor : ℝ)
      .ok (grid.getD iFloor 0 * (1 - weight) + grid.getD (iFloor + 1) 0 * weight)

/-- `PDEEngine::calculate_price` from `src/core/pde/engine.rs`: grid set-up
over `[0.1 S, 2 S]` (or its logarithm), the explicit-scheme stability check
(its message paraphrased), terminal layer from the payoff, backward stepping,
and the clamped linear interpolation at the (possibly transformed) spot. -/
noncomputable def PDEEngine.calculatePrice (e : PDEEngine) (prm : CommonParams)
    (payoff : ℝ → ℝ) (ex : ExerciseRule) : Except OptionError ℝ :=
  let s0 := prm.spot
  let tTotal := prm.timeToMaturity
  let sigma := prm.volatility
  let sMin := if e.useLogSpace then Real.log (0.1 * s0) else 0.1 * s0
  let sMax := if e.useLogSpace then Real.log (2 * s0) else 2 * s0
  let sCurrent := if e.useLogSpace then Real.log s0 else s0
  let toPrice : ℝ → ℝ := if e.useLogSpace then Real.exp else id
  let dx := (sMax - sMin) / e.xSteps
  let dt := tTotal / e.tSteps
  let stabilityFactor :=
    if e.useLogSpace then sigma ^ 2 * dt / dx ^ 2 else sigma ^ 2 * (2 * s0) ^ 2 * dt / dx ^ 2
  if e.method = .Explicit ∧ 0.5 < stabilityFactor then
    .error (.Other "explicit stability condition violated")
  else
    let terminal : List ℝ :=
      List.ofFn fun i : Fin (e.xSteps + 1) => payoff (toPrice (sMin + (i : ℕ) * dx))
    match pdeBackward (fun nIdx layer => pdeStepAt e prm payoff ex sMin dx dt nIdx layer)
        e.tSteps terminal with
    | .error err => .error err
    | .ok layer0 =>
      match linearInterpolate sCurrent sMin dx layer0 with
      | .error err => .error err
      | .ok price => .ok (max price 0)

/-- Concrete boundary condition used in concrete evaluations: constant edge
values. -/
def constBoundary : BoundaryCondition :=
  ⟨fun _ => .ok 0, fun _ => .ok 190⟩

/-- Payoff used in the C4 counterexample (a legal `Payoff` implementor: any
function of the spot): it pays 1 strictly below `exp(-9)` — on the concrete
10-step lattice with spot 1 and `u = e`, only the bottom terminal node — and
0 everywhere else. -/
noncomputable def cePayoff : ℝ → ℝ := fun x => if x < Real.exp (-9) then 1 else 0

theorem binomTermSpot_eq (e : BinomialEngine) (prm : CommonParams) (i : ℕ) :
    binomTermSpot e prm i = prm.spot * crrD e prm ^ e.steps * crrU e prm ^ (2 * i) := by
  induction i with
  | zero => simp [binomTermSpot]
  | succ n ih =>
    rw [binomTermSpot, ih, show 2 * (n + 1) = 2 * n + 1 + 1 by ring, pow_succ, pow_succ]
    ring

theorem binomValues_eq_spec (e : BinomialEngine) (prm : CommonParams)
    (payoff : ℝ → ℝ) (ex : ExerciseRule) (k i : ℕ) :
    binomValues e prm payoff ex k i = crrSpecValues e prm payoff ex k i := by
  induction k generalizing i with
  | zero => simp [binomValues, crrSpecValues, crrSpecTerminal, binomTermSpot_eq]
  | succ n ih =>
    rw [binomValues, crrSpecValues, ih, ih]
    have hc : crrPu e prm * crrSpecValues e prm payoff ex n (i + 1) +
        crrPd e prm * crrSpecValues e prm payoff ex n i =
        crrDisc e prm * (crrP e prm * crrSpecValues e prm payoff ex n (i + 1) +
          (1 - crrP e prm) * crrSpecValues e prm payoff ex n i) := by
      rw [crrPu, crrPd]; ring
    rw [hc]

/-- C1.  For every market-parameter bundle with positive time to maturity and
every payoff and exercise policy, `BinomialEngine::price` returns exactly the
Cox-Ross-Rubinstein backward-induction value described by the specification:
terminal nodes hold `payoff (S * d^N * u^(2i))`, earlier nodes combine
`discount * (p * value[i+1] + (1-p) * value[i])` with the exercise decision at
the recomputed spot `S * u^(2i-j)`, and the root value is returned. -/
theorem binomial_price_is_crr (e : BinomialEngine) (prm : CommonParams)
    (payoff : ℝ → ℝ) (ex : ExerciseRule) (h : 0 < prm.timeToMaturity) :
    e.price prm payoff ex = crrSpecPrice e prm payoff ex := by
  rw [BinomialEngine.price, crrSpecPrice, if_neg (not_le.mpr h), binomValues_eq_spec]

/-- Witness for C1 at concrete inputs. -/
theorem binomial_price_is_crr_witness :
    (0 : ℝ) < 1 ∧ BinomialEngine.price ⟨10⟩ ⟨100, 1/20, 1/5, 0, 1⟩ id
      ⟨fun _ _ _ _ => false, true⟩ =
      crrSpecPrice ⟨10⟩ ⟨100, 1/20, 1/5, 0, 1⟩ id ⟨fun _ _ _ _ => false, true⟩ :=
  ⟨one_pos, binomial_price_is_crr ⟨10⟩ ⟨100, 1/20, 1/5, 0, 1⟩ id
    ⟨fun _ _ _ _ => false, true⟩ one_pos⟩

/-- C2 counterexample.  At zero maturity the analytic engine under the
American exercise policy fails with `InvalidParameter` instead of returning
the intrinsic payoff, so not every engine returns `payoff(spot)` for every
exercise policy. -/
theorem analytic_zero_maturity_not_intrinsic :
    AnalyticEngine.price ⟨fun _ => none⟩ ⟨1, 0, 0, 0, 0⟩ (.call 1) americanExercise =
      .error (.InvalidParameter
        "The pricing of analytical solutions only support European rules") ∧
    AnalyticEngine.price ⟨fun _ => none⟩ ⟨1, 0, 0, 0, 0⟩ (.call 1) americanExercise ≠
      .ok (PayoffModel.eval (.call 1) 1) := by
  constructor
  · rfl
  · intro h
    exact absurd h (by simp [AnalyticEngine.price, americanExercise])

/-- C2 as amended.  At zero maturity the binomial engine returns exactly the
intrinsic payoff for every payoff and exercise policy, and the vanilla and
binary analytic calculators return exactly the intrinsic payoff for every
payoff they are handed; the analytic engine reaches a calculator only under
European exercise, and the PDE and Monte Carlo engines have no zero-maturity
shortcut. -/
theorem zero_maturity_intrinsic (e : BinomialEngine) (prm : CommonParams)
    (payoff : ℝ → ℝ) (ex : ExerciseRule) (Φ : ℝ → ℝ) (payoff2 : PayoffModel)
    (h : prm.timeToMaturity = 0) :
    e.price prm payoff ex = payoff prm.spot ∧
    vanillaCalculate Φ prm payoff2 = .ok (payoff2.eval prm.spot) ∧
    binaryCalculate Φ prm payoff2 = .ok (payoff2.eval prm.spot) := by
  refine ⟨?_, ?_, ?_⟩
  · rw [BinomialEngine.price, if_pos (le_of_eq h)]
  · simp [vanillaCalculate, h]
  · simp [binaryCalculate, h]

/-- Witness for C2 as amended at concrete inputs. -/
theorem zero_maturity_intrinsic_witness :
    BinomialEngine.price ⟨10⟩ ⟨5, 0, 1, 0, 0⟩ id ⟨fun _ _ _ _ => false, true⟩ = id 5 ∧
    vanillaCalculate id ⟨5, 0, 1, 0, 0⟩ (.call 3) = .ok (PayoffModel.eval (.call 3) 5) ∧
    binaryCalculate id ⟨5, 0, 1, 0, 0⟩ (.call 3) = .ok (PayoffModel.eval (.call 3) 5) :=
  zero_maturity_intrinsic ⟨10⟩ ⟨5, 0, 1, 0, 0⟩ id ⟨fun _ _ _ _ => false, true⟩ id
    (.call 3) rfl

theorem foldl_insertCalculator_of_not_mem
    (c : AnalyticCalculator) (l : List AnalyticPayoffType) (k : AnalyticPayoffType)
    (hk : k ∉ l) (m : AnalyticPayoffType → Option AnalyticCalculator) :
    l.foldl (fun m typ => insertCalculator m typ c) m k = m k := by
  induction l generalizing m with
  | nil => rfl
  | cons a t ih =>
    have hka : k ≠ a := fun h => hk (h ▸ List.mem_cons_self a t)
    have hkt : k ∉ t := fun h => hk (List.mem_cons_of_mem a h)
    rw [List.foldl_cons, ih hkt, insertCalculator, if_neg hka]

theorem foldl_insertCalculator_of_mem
    (c : AnalyticCalculator) (l : List AnalyticPayoffType) (k : AnalyticPayoffType)
    (hk : k ∈ l) (m : AnalyticPayoffType → Option AnalyticCalculator) :
    l.foldl (fun m typ => insertCalculator m typ c) m k = some c := by
  induction l generalizing m with
  | nil => exact absurd hk (List.not_mem_nil k)
  | cons a t ih =>
    rw [List.foldl_cons]
    by_cases h : k ∈ t
    · exact ih h _
    · have hka : k = a := by
        rcases List.mem_cons.mp hk with h1 | h2
        · exact h1
        · exact absurd h2 h
      rw [foldl_insertCalculator_of_not_mem c t k h, insertCalculator, if_pos hka]

/-- C6 counterexample.  For a payoff that declares no analytic kind and a
European exercise policy, `AnalyticEngine::price` fails with
`InvalidParameter`, not with `NotImplemented` as the claim states. -/
theorem analytic_none_kind_gives_invalid_parameter :
    AnalyticEngine.price ⟨fun _ => none⟩ ⟨1, 0, 0, 0, 1⟩ (.custom (fun _ => 0) none)
      europeanExercise =
      .error (.InvalidParameter "Analytical solution do not support this type of option") ∧
    ∀ m, AnalyticEngine.price ⟨fun _ => none⟩ ⟨1, 0, 0, 0, 1⟩ (.custom (fun _ => 0) none)
      europeanExercise ≠ .error (.NotImplemented m) := by
  refine ⟨rfl, fun m h => ?_⟩
  simp [AnalyticEngine.price, europeanExercise, PayoffModel.analyticType] at h

/-- C6 as amended.  `AnalyticEngine::price` fails `InvalidParameter` when the
exercise policy is not European; under European exercise it fails
`InvalidParameter` (not `NotImplemented`) when the payoff declares no analytic
kind, fails `NotImplemented` when no calculator is registered for the declared
kind, and otherwise returns the registered calculator's result. -/
theorem analytic_price_contract (e : AnalyticEngine) (prm : CommonParams)
    (payoff : PayoffModel) (ex : ExerciseRule) :
    (ex.isEuropean = false → e.price prm payoff ex =
      .error (.InvalidParameter
        "The pricing of analytical solutions only support European rules")) ∧
    (ex.isEuropean = true → payoff.analyticType = none → e.price prm payoff ex =
      .error (.InvalidParameter "Analytical solution do not support this type of option")) ∧
    (∀ typ, ex.isEuropean = true → payoff.analyticType = some typ →
      e.getCalculator typ = none →
      e.price prm payoff ex = .error (.NotImplemented "Not found calculator")) ∧
    (∀ typ c, ex.isEuropean = true → payoff.analyticType = some typ →
      e.getCalculator typ = some c → e.price prm payoff ex = c.calculate prm payoff) := by
  refine ⟨fun h => ?_, fun h1 h2 => ?_, fun typ h1 h2 h3 => ?_, fun typ c h1 h2 h3 => ?_⟩
  · rw [AnalyticEngine.price, if_pos h]
  · simp [AnalyticEngine.price, h1, h2]
  · simp [AnalyticEngine.price, h1, h2, h3]
  · simp [AnalyticEngine.price, h1, h2, h3]

/-- Witness for C6 as amended at concrete inputs. -/
theorem analytic_price_contract_witness :
    AnalyticEngine.price vanillaOnlyEngine ⟨2, 0, 0, 0, 1⟩ (.call 1) europeanExercise =
      spotCalculator.calculate ⟨2, 0, 0, 0, 1⟩ (.call 1) :=
  (analytic_price_contract vanillaOnlyEngine ⟨2, 0, 0, 0, 1⟩ (.call 1)
    europeanExercise).2.2.2 .VanillaCall spotCalculator rfl rfl rfl

/-- C9.  If the registry currently prices a payoff of kind `k` successfully
with value `v` through calculator `c`, then after `remove_calculator k` the
same pricing call fails `NotImplemented`, and after re-registering the same
calculator (which supports `k`) the call returns exactly `v` again. -/
theorem registry_roundtrip (e : AnalyticEngine) (prm : CommonParams)
    (payoff : PayoffModel) (ex : ExerciseRule) (k : AnalyticPayoffType)
    (c : AnalyticCalculator) (v : ℝ)
    (hk : payoff.analyticType = some k) (hc : e.getCalculator k = some c)
    (hv : e.price prm payoff ex = .ok v) :
    (e.removeCalculator k).price prm payoff ex =
      .error (.NotImplemented "Not found calculator") ∧
    (k ∈ c.supportedTypes →
      ((e.removeCalculator k).registerCalculator c).price prm payoff ex = .ok v) := by
  have heu : ex.isEuropean = true := by
    by_contra h
    rw [AnalyticEngine.price, if_pos (Bool.not_eq_true _ ▸ h)] at hv
    exact absurd hv (by simp)
  have hcv : c.calculate prm payoff = .ok v := by
    rw [AnalyticEngine.price] at hv
    simpa [heu, hk, hc] using hv
  constructor
  · simp [AnalyticEngine.price, heu, hk, AnalyticEngine.removeCalculator,
      AnalyticEngine.getCalculator]
  · intro hmem
    have hreg : ((e.removeCalculator k).registerCalculator c).getCalculator k = some c := by
      rw [AnalyticEngine.registerCalculator, AnalyticEngine.getCalculator]
      exact foldl_insertCalculator_of_mem c _ k hmem _
    simp [AnalyticEngine.price, heu, hk, hreg, hcv]

/-- Witness for C9 at concrete inputs. -/
theorem registry_roundtrip_witness :
    (vanillaOnlyEngine.removeCalculator .VanillaCall).price ⟨2, 0, 0, 0, 1⟩ (.call 1)
      europeanExercise = .error (.NotImplemented "Not found calculator") ∧
    (AnalyticPayoffType.VanillaCall ∈ spotCalculator.supportedTypes →
      ((vanillaOnlyEngine.removeCalculator .VanillaCall).registerCalculator
        spotCalculator).price ⟨2, 0, 0, 0, 1⟩ (.call 1) europeanExercise = .ok 2) :=
  registry_roundtrip vanillaOnlyEngine ⟨2, 0, 0, 0, 1⟩ (.call 1) europeanExercise
    .VanillaCall spotCalculator 2 rfl rfl rfl

theorem mcAccum_ok (f : ℕ → Except OptionError ℝ) (g : ℕ → ℝ)
    (h : ∀ i, f i = .ok (g i)) (k : ℕ) :
    mcAccum f k = .ok (Finset.sum (Finset.range k) g) := by
  induction k with
  | zero => simp [mcAccum]
  | succ n ih =>
    rw [mcAccum, ih, h n]
    rw [Finset.sum_range_succ]
    rfl

theorem mcPayoffTermsAnti_sum (pp : List ℝ → ℝ) (pairF : ℕ → List ℝ × List ℝ)
    (k : ℕ) : (mcPayoffTermsAnti pp pairF k).sum =
      Finset.sum (Finset.range k) fun i => pp (pairF i).1 + pp (pairF i).2 := by
  induction k with
  | zero => simp [mcPayoffTermsAnti]
  | succ n ih =>
    rw [mcPayoffTermsAnti, Finset.sum_range_succ, ← ih]
    simp [add_assoc]

theorem mcPayoffTermsPlain_sum (pp : List ℝ → ℝ) (pathF : ℕ → List ℝ) (k : ℕ) :
    (mcPayoffTermsPlain pp pathF k).sum =
      Finset.sum (Finset.range k) fun i => pp (pathF i) := by
  induction k with
  | zero => simp [mcPayoffTermsPlain]
  | succ n ih =>
    rw [mcPayoffTermsPlain, Finset.sum_range_succ, ← ih]
    simp

theorem mcPayoffTermsAnti_length (pp : List ℝ → ℝ) (pairF : ℕ → List ℝ × List ℝ)
    (k : ℕ) : (mcPayoffTermsAnti pp pairF k).length = 2 * k := by
  induction k with
  | zero => rfl
  | succ n ih => simp [mcPayoffTermsAnti, ih]; omega

theorem mcPayoffTermsPlain_length (pp : List ℝ → ℝ) (pathF : ℕ → List ℝ) (k : ℕ) :
    (mcPayoffTermsPlain pp pathF k).length = k := by
  induction k with
  | zero => rfl
  | succ n ih => simp [mcPayoffTermsPlain, ih]

/-- C7 as amended.  With a process attached, the Monte Carlo price equals the
sum of the per-path payoffs divided by `num_simulations` and discounted by
`exp(-r*T)`, where the accumulated payoffs are those of `num_simulations`
plain paths, or of `num_simulations / 2` antithetic pairs — that is,
`2 * (num_simulations / 2)` paths, one fewer than `num_simulations` when the
count is odd. -/
theorem mc_price_is_discounted_mean (e : MonteCarloEngine) (p : StochasticProcess)
    (draws : ℕ → ℕ) (prm : CommonParams) (pp : List ℝ → ℝ)
    (pathF : ℕ → List ℝ) (pairF : ℕ → List ℝ × List ℝ)
    (hproc : e.process = some p)
    (hpath : ∀ i, p.simulatePath (draws i) prm.spot prm.timeToMaturity e.timeSteps =
      .ok (pathF i))
    (hpair : ∀ i, p.simulateAntitheticPath (draws i) prm.spot prm.timeToMaturity
      e.timeSteps = .ok (pairF i)) :
    e.calculatePrice draws prm pp = .ok
      ((if e.useAntithetic then mcPayoffTermsAnti pp pairF (e.numSimulations / 2)
        else mcPayoffTermsPlain pp pathF e.numSimulations).sum / e.numSimulations *
        Real.exp (-prm.riskFreeRate * prm.timeToMaturity)) ∧
    (if e.useAntithetic then mcPayoffTermsAnti pp pairF (e.numSimulations / 2)
      else mcPayoffTermsPlain pp pathF e.numSimulations).length =
      (if e.useAntithetic then 2 * (e.numSimulations / 2) else e.numSimulations) := by
  have hiter : ∀ i, mcIterPayoff p e.useAntithetic draws prm.spot prm.timeToMaturity
      e.timeSteps pp i =
      .ok (if e.useAntithetic then pp (pairF i).1 + pp (pairF i).2 else pp (pathF i)) := by
    intro i
    cases hA : e.useAntithetic <;>
      simp [mcIterPayoff, hA, hpath i, hpair i, Except.map]
  have hsum : (Finset.sum
      (Finset.range (if e.useAntithetic then e.numSimulations / 2 else e.numSimulations))
      fun i => if e.useAntithetic then pp (pairF i).1 + pp (pairF i).2 else pp (pathF i)) =
      (if e.useAntithetic then mcPayoffTermsAnti pp pairF (e.numSimulations / 2)
        else mcPayoffTermsPlain pp pathF e.numSimulations).sum := by
    cases hA : e.useAntithetic <;>
      simp [hA, mcPayoffTermsAnti_sum, mcPayoffTermsPlain_sum]
  constructor
  · have hserial : mcTotalSerial e p draws prm.spot prm.timeToMaturity pp = .ok
        ((if e.useAntithetic then mcPayoffTermsAnti pp pairF (e.numSimulations / 2)
          else mcPayoffTermsPlain pp pathF e.numSimulations).sum) := by
      rw [mcTotalSerial, mcAccum_ok _ _ hiter, hsum]
    have hparallel : mcTotalParallel e p draws prm.spot prm.timeToMaturity pp = .ok
        ((if e.useAntithetic then mcPayoffTermsAnti pp pairF (e.numSimulations / 2)
          else mcPayoffTermsPlain pp pathF e.numSimulations).sum) := by
      rw [mcTotalParallel, ← hsum]
      congr 1
      refine Finset.sum_congr rfl fun i _ => ?_
      rw [hiter i]
    have htot : (if e.useParallel then
        mcTotalParallel e p draws prm.spot prm.timeToMaturity pp
        else mcTotalSerial e p draws prm.spot prm.timeToMaturity pp) = .ok
        ((if e.useAntithetic then mcPayoffTermsAnti pp pairF (e.numSimulations / 2)
          else mcPayoffTermsPlain pp pathF e.numSimulations).sum) := by
      cases hP : e.useParallel
      · simpa using hserial
      · simpa using hparallel
    rw [MonteCarloEngine.calculatePrice, hproc]
    simp [htot, Except.bind]
  · cases hA : e.useAntithetic <;>
      simp [hA, mcPayoffTermsAnti_length, mcPayoffTermsPlain_length]

/-- Witness for C7 as amended at concrete inputs. -/
theorem mc_price_is_discounted_mean_witness :
    MonteCarloEngine.calculatePrice ⟨1000, 1, some constPairProcess, false, false, 0⟩
      (fun i => i) ⟨1, 0, 0, 0, 1⟩ (fun _ => 1) = .ok
      ((mcPayoffTermsPlain (fun _ => 1) (fun _ => [1]) 1000).sum / (1000 : ℕ) *
        Real.exp (-(0 : ℝ) * 1)) ∧
    (mcPayoffTermsPlain (fun _ => (1 : ℝ)) (fun _ => [1]) 1000).length = 1000 :=
  mc_price_is_discounted_mean ⟨1000, 1, some constPairProcess, false, false, 0⟩
    constPairProcess (fun i => i) ⟨1, 0, 0, 0, 1⟩ (fun _ => 1) (fun _ => [1])
    (fun _ => ([1], [1])) rfl (fun _ => rfl) (fun _ => rfl)

/-- C7 counterexample.  For the valid engine with 1001 simulations in
antithetic mode and the constant unit payoff, the sum the engine divides by
`num_simulations` holds only `2 * (1001 / 2) = 1000` path payoffs: the price
comes out as `1000/1001` where a sum of exactly `num_simulations` unit
payoffs would give `1`. -/
theorem mc_antithetic_odd_price :
    MonteCarloEngine.calculatePrice ⟨1001, 1, some constPairProcess, true, false, 7⟩
      (fun i => i) ⟨1, 0, 0, 0, 1⟩ (fun _ => 1) = .ok (1000 / 1001) ∧
    ((1000 : ℝ) / 1001) ≠ 1 := by
  constructor
  · have hiter : ∀ i, mcIterPayoff constPairProcess true (fun i => i) (1 : ℝ) (1 : ℝ) 1
        (fun _ => (1 : ℝ)) i = .ok ((fun _ : ℕ => (2 : ℝ)) i) := by
      intro i
      simp [mcIterPayoff, constPairProcess, Except.map]
      norm_num
    rw [MonteCarloEngine.calculatePrice]
    show (do
      let total ← mcTotalSerial ⟨1001, 1, some constPairProcess, true, false, 7⟩
        constPairProcess (fun i => i) (1 : ℝ) (1 : ℝ) (fun _ => 1)
      pure (total / ((1001 : ℕ) : ℝ) * Real.exp (-(0 : ℝ) * 1)) :
        Except OptionError ℝ) = .ok (1000 / 1001)
    rw [mcTotalSerial]
    rw [show ((if (⟨1001, 1, some constPairProcess, true, false, 7⟩ :
      MonteCarloEngine).useAntithetic then 1001 / 2 else 1001) : ℕ) = 500 from rfl]
    rw [mcAccum_ok _ _ hiter 500]
    simp [Except.bind, Finset.sum_const]
    norm_num
  · norm_num

/-- C8.  Monte Carlo engine construction fails `InvalidParameter` exactly when
the simulation count is below 1000 or the time-step count is zero, and a
constructed engine with no stochastic process attached fails `NotSet` on every
pricing call. -/
theorem mc_new_invalid_iff_and_notset (n m : ℕ) (proc : Option StochasticProcess)
    (anti par : Bool) (seed : ℕ) :
    ((∃ msg, MonteCarloEngine.new n m proc anti par seed =
      .error (.InvalidParameter msg)) ↔ (n < 1000 ∨ m = 0)) ∧
    (∀ e, MonteCarloEngine.new n m none anti par seed = .ok e →
      ∀ draws prm pp, e.calculatePrice draws prm pp =
        .error (.NotSet "Process not set")) := by
  constructor
  · constructor
    · rintro ⟨msg, hmsg⟩
      by_contra hcon
      push_neg at hcon
      rw [MonteCarloEngine.new, if_neg (by omega), if_neg (by omega)] at hmsg
      exact absurd hmsg (by simp)
    · intro h
      by_cases hn : n < 1000
      · exact ⟨_, by rw [MonteCarloEngine.new, if_pos hn]⟩
      · have hm : m < 1 := by omega
        exact ⟨_, by rw [MonteCarloEngine.new, if_neg hn, if_pos hm]⟩
  · intro e he draws prm pp
    rw [MonteCarloEngine.new] at he
    split_ifs at he with h1 h2
    have he2 : e = ⟨n, m, none, anti, par && decide (1000 < n), seed⟩ :=
      (Except.ok.inj he).symm
    rw [he2, MonteCarloEngine.calculatePrice]

/-- Witness for C8 at concrete inputs. -/
theorem mc_new_invalid_iff_and_notset_witness :
    MonteCarloEngine.calculatePrice ⟨1000, 1, none, false, false, 0⟩ (fun i => i)
      ⟨1, 0, 0, 0, 1⟩ (fun _ => 1) = .error (.NotSet "Process not set") :=
  (mc_new_invalid_iff_and_notset 1000 1 none false false 0).2
    ⟨1000, 1, none, false, false, 0⟩ rfl (fun i => i) ⟨1, 0, 0, 0, 1⟩ (fun _ => 1)

theorem thomasDenom_ne_zero (a b c d : ℕ → ℚ) (n i : ℕ)
    (h : thomasEps ≤ |thomasDenom a b c d n i|) : thomasDenom a b c d n i ≠ 0 := by
  intro h0
  rw [h0] at h
  norm_num [thomasEps] at h

theorem thomasCpDp_succ (a b c d : ℕ → ℚ) (n i : ℕ) :
    thomasCpDp a b c d n (i + 1) =
      (if i + 1 < n - 1 then c (i + 1) / thomasDenom a b c d n (i + 1) else 0,
        (d (i + 1) - a i * (thomasCpDp a b c d n i).2) / thomasDenom a b c d n (i + 1)) :=
  rfl

theorem thomasX_last (cp dp : ℕ → ℚ) (n : ℕ) :
    thomasX cp dp n (n - 1) = dp (n - 1) := by
  rw [thomasX, Nat.sub_self, thomasY]

theorem thomasX_step (cp dp : ℕ → ℚ) (n i : ℕ) (h : i < n - 1) :
    thomasX cp dp n i = dp i - cp i * thomasX cp dp n (i + 1) := by
  have h1 : n - 1 - i = (n - 2 - i) + 1 := by omega
  have h2 : n - 1 - (n - 2 - i + 1) = i := by omega
  have h3 : n - 1 - (i + 1) = n - 2 - i := by omega
  rw [thomasX, h1, thomasY, h2, thomasX, h3]

theorem thomas_row_zero (a b c d : ℕ → ℚ) (n : ℕ) (hn : 2 ≤ n)
    (hb0 : thomasDenom a b c d n 0 ≠ 0) :
    b 0 * thomasX (fun j => (thomasCpDp a b c d n j).1)
        (fun j => (thomasCpDp a b c d n j).2) n 0 +
      c 0 * thomasX (fun j => (thomasCpDp a b c d n j).1)
        (fun j => (thomasCpDp a b c d n j).2) n 1 = d 0 := by
  have hb : b 0 ≠ 0 := hb0
  rw [thomasX_step _ _ _ _ (by omega : 0 < n - 1)]
  show b 0 * ((thomasCpDp a b c d n 0).2 - (thomasCpDp a b c d n 0).1 * _) + _ = _
  rw [thomasCpDp]
  field_simp

theorem thomas_row_interior (a b c d : ℕ → ℚ) (n i : ℕ) (hi : i + 1 < n - 1)
    (hD : thomasDenom a b c d n (i + 1) ≠ 0) :
    a i * thomasX (fun j => (thomasCpDp a b c d n j).1)
        (fun j => (thomasCpDp a b c d n j).2) n i +
      b (i + 1) * thomasX (fun j => (thomasCpDp a b c d n j).1)
        (fun j => (thomasCpDp a b c d n j).2) n (i + 1) +
      c (i + 1) * thomasX (fun j => (thomasCpDp a b c d n j).1)
        (fun j => (thomasCpDp a b c d n j).2) n (i + 2) = d (i + 1) := by
  have hDdef : thomasDenom a b c d n (i + 1) =
      b (i + 1) - a i * (thomasCpDp a b c d n i).1 := rfl
  rw [thomasX_step _ _ _ _ (by omega : i < n - 1),
    show i + 2 = (i + 1) + 1 from rfl,
    thomasX_step _ _ _ _ hi]
  simp only [thomasCpDp_succ, if_pos hi]
  rw [hDdef] at hD ⊢
  field_simp
  ring

theorem thomas_row_last (a b c d : ℕ → ℚ) (n : ℕ) (hn : 2 ≤ n)
    (hD : thomasDenom a b c d n (n - 1) ≠ 0) :
    a (n - 2) * thomasX (fun j => (thomasCpDp a b c d n j).1)
        (fun j => (thomasCpDp a b c d n j).2) n (n - 2) +
      b (n - 1) * thomasX (fun j => (thomasCpDp a b c d n j).1)
        (fun j => (thomasCpDp a b c d n j).2) n (n - 1) = d (n - 1) := by
  have hm : n - 1 = (n - 2) + 1 := by omega
  have hDdef : thomasDenom a b c d n ((n - 2) + 1) =
      b ((n - 2) + 1) - a (n - 2) * (thomasCpDp a b c d n (n - 2)).1 := rfl
  rw [thomasX_step _ _ _ _ (by omega : n - 2 < n - 1), ← hm, thomasX_last, hm,
    thomasCpDp_succ]
  simp only
  have hD2 : b ((n - 2) + 1) - a (n - 2) * (thomasCpDp a b c d n (n - 2)).1 ≠ 0 := by
    rw [← hDdef, ← hm]
    exact hD
  rw [hDdef]
  field_simp
  ring

theorem thomas_solution_rows (a b c d : ℕ → ℚ) (n : ℕ) (hn : 2 ≤ n)
    (hgood : ∀ i, i < n → thomasEps ≤ |thomasDenom a b c d n i|) :
    ∀ i, i < n → tridiagApply a b c
      (thomasX (fun j => (thomasCpDp a b c d n j).1)
        (fun j => (thomasCpDp a b c d n j).2) n) n i = d i := by
  intro i hi
  rcases Nat.eq_zero_or_pos i with h0 | hpos
  · subst h0
    rw [tridiagApply, if_neg (by omega), if_pos (by omega : 0 < n - 1)]
    rw [zero_add]
    exact thomas_row_zero a b c d n hn
      (thomasDenom_ne_zero a b c d n 0 (hgood 0 (by omega)))
  · by_cases hlast : i = n - 1
    · subst hlast
      rw [tridiagApply, if_pos (by omega), if_neg (by omega)]
      rw [add_zero]
      exact thomas_row_last a b c d n hn
        (thomasDenom_ne_zero a b c d n (n - 1) (hgood (n - 1) (by omega)))
    · have hk : i - 1 + 1 = i := by omega
      rw [tridiagApply, if_pos (by omega), if_pos (by omega : i < n - 1)]
      have := thomas_row_interior a b c d n (i - 1) (by omega)
        (thomasDenom_ne_zero a b c d n (i - 1 + 1) (hgood (i - 1 + 1) (by omega)))
      rw [hk] at this
      have hk2 : i - 1 + 2 = i + 1 := by omega
      rw [hk2] at this
      exact this

theorem getD_ofFn_lt {n : ℕ} (f : Fin n → ℚ) (j : ℕ) (hj : j < n) :
    (List.ofFn f).getD j 0 = f ⟨j, hj⟩ := by
  rw [List.getD_eq_getElem?_getD, List.getElem?_ofFn]
  simp [List.ofFnNthVal, hj]

/-- C5.  For every tridiagonal system of matching dimensions: whenever
`ThomasSolver` succeeds, substituting the returned vector into the system
reproduces the right-hand side exactly (exact arithmetic); and whenever the
forward elimination meets a pivot of magnitude below the numerical-zero
threshold `1e-12` — in particular a zero pivot — the solver returns
`CalculationError` (so in particular no vector at all, and no NaN). -/
theorem thomas_solver_spec (a b c d : List ℚ)
    (hb : b.length = d.length) (ha : a.length = d.length - 1)
    (hc : c.length = d.length - 1) :
    (∀ xs, ThomasSolver a b c d = .ok xs →
      ∀ i, i < d.length → tridiagApply (fun j => a.getD j 0) (fun j => b.getD j 0)
        (fun j => c.getD j 0) (fun j => xs.getD j 0) d.length i = d.getD i 0) ∧
    ((∃ i, i < d.length ∧ |thomasDenom (fun j => a.getD j 0) (fun j => b.getD j 0)
        (fun j => c.getD j 0) (fun j => d.getD j 0) d.length i| < thomasEps) →
      ∃ msg, ThomasSolver a b c d = .error (.CalculationError msg)) := by
  have hdim : ¬(b.length ≠ d.length ∨ a.length ≠ d.length - 1 ∨
      c.length ≠ d.length - 1) := by
    simp [hb, ha, hc]
  constructor
  · intro xs hxs i hi
    by_cases h0 : d.length = 0
    · omega
    · simp only [ThomasSolver] at hxs
      rw [if_neg h0, if_neg hdim] at hxs
      by_cases h1 : d.length = 1
      · rw [if_pos h1] at hxs
        by_cases hpiv : |b.getD 0 0| < thomasEps
        · rw [if_pos hpiv] at hxs
          exact absurd hxs (by simp)
        · rw [if_neg hpiv] at hxs
          have hxs2 : xs = [d.getD 0 0 / b.getD 0 0] := (Except.ok.inj hxs).symm
          have hb0 : b.getD 0 0 ≠ 0 := by
            intro hz
            rw [hz] at hpiv
            norm_num [thomasEps] at hpiv
          have hi0 : i = 0 := by omega
          subst hi0
          rw [hxs2, tridiagApply, if_neg (by omega), if_neg (by omega)]
          show 0 + b.getD 0 0 * ([d.getD 0 0 / b.getD 0 0].getD 0 0) + 0 = d.getD 0 0
          rw [List.getD_cons_zero, zero_add, add_zero, mul_comm,
            div_mul_cancel₀ _ hb0]
      · rw [if_neg h1] at hxs
        by_cases hgood : ∀ j ∈ Finset.range d.length,
            thomasEps ≤ |thomasDenom (fun j => a.getD j 0) (fun j => b.getD j 0)
              (fun j => c.getD j 0) (fun j => d.getD j 0) d.length j|
        · rw [if_pos hgood] at hxs
          have hxs2 : xs = List.ofFn fun k : Fin d.length =>
              thomasX (fun j => (thomasCpDp (fun j => a.getD j 0) (fun j => b.getD j 0)
                  (fun j => c.getD j 0) (fun j => d.getD j 0) d.length j).1)
                (fun j => (thomasCpDp (fun j => a.getD j 0) (fun j => b.getD j 0)
                  (fun j => c.getD j 0) (fun j => d.getD j 0) d.length j).2)
                d.length k := (Except.ok.inj hxs).symm
          have hrows : tridiagApply (fun j => a.getD j 0) (fun j => b.getD j 0)
              (fun j => c.getD j 0)
              (thomasX (fun j => (thomasCpDp (fun j => a.getD j 0) (fun j => b.getD j 0)
                  (fun j => c.getD j 0) (fun j => d.getD j 0) d.length j).1)
                (fun j => (thomasCpDp (fun j => a.getD j 0) (fun j => b.getD j 0)
                  (fun j => c.getD j 0) (fun j => d.getD j 0) d.length j).2)
                d.length) d.length i = d.getD i 0 :=
            thomas_solution_rows (fun j => a.getD j 0) (fun j => b.getD j 0)
              (fun j => c.getD j 0) (fun j => d.getD j 0) d.length (by omega)
              (fun j hj => hgood j (Finset.mem_range.mpr hj)) i hi
          have hx : ∀ j, j < d.length → xs.getD j 0 =
              thomasX (fun j => (thomasCpDp (fun j => a.getD j 0) (fun j => b.getD j 0)
                  (fun j => c.getD j 0) (fun j => d.getD j 0) d.length j).1)
                (fun j => (thomasCpDp (fun j => a.getD j 0) (fun j => b.getD j 0)
                  (fun j => c.getD j 0) (fun j => d.getD j 0) d.length j).2)
                d.length j := by
            intro j hj
            rw [hxs2]
            exact getD_ofFn_lt _ j hj
          rw [← hrows]
          simp only [tridiagApply]
          congr 1
          · congr 1
            · by_cases hge : 1 ≤ i
              · rw [if_pos hge, if_pos hge, hx (i - 1) (by omega)]
              · rw [if_neg hge, if_neg hge]
            · rw [hx i hi]
          · by_cases hlt : i < d.length - 1
            · rw [if_pos hlt, if_pos hlt, hx (i + 1) (by omega)]
            · rw [if_neg hlt, if_neg hlt]
        · rw [if_neg hgood] at hxs
          exact absurd hxs (by simp)
  · rintro ⟨i, hi, hbad⟩
    have h0 : ¬ d.length = 0 := by omega
    simp only [ThomasSolver]
    rw [if_neg h0, if_neg hdim]
    by_cases h1 : d.length = 1
    · rw [if_pos h1]
      have hi0 : i = 0 := by omega
      subst hi0
      have hpiv : |b.getD 0 0| < thomasEps := hbad
      rw [if_pos hpiv]
      exact ⟨_, rfl⟩
    · rw [if_neg h1]
      have hnot : ¬ ∀ j ∈ Finset.range d.length,
          thomasEps ≤ |thomasDenom (fun j => a.getD j 0) (fun j => b.getD j 0)
            (fun j => c.getD j 0) (fun j => d.getD j 0) d.length j| := by
        intro hall
        exact absurd (hall i (Finset.mem_range.mpr hi)) (not_le.mpr hbad)
      rw [if_neg hnot]
      exact ⟨_, rfl⟩

/-- Witness for C5 at a concrete system. -/
theorem thomas_solver_spec_witness :
    (∀ xs, ThomasSolver [(1 : ℚ)] [2, 2] [1] [3, 3] = .ok xs →
      ∀ i, i < [(3 : ℚ), 3].length →
        tridiagApply (fun j => [(1 : ℚ)].getD j 0) (fun j => [(2 : ℚ), 2].getD j 0)
          (fun j => [(1 : ℚ)].getD j 0) (fun j => xs.getD j 0)
          [(3 : ℚ), 3].length i = [(3 : ℚ), 3].getD i 0) ∧
    ((∃ i, i < [(3 : ℚ), 3].length ∧
        |thomasDenom (fun j => [(1 : ℚ)].getD j 0) (fun j => [(2 : ℚ), 2].getD j 0)
          (fun j => [(1 : ℚ)].getD j 0) (fun j => [(3 : ℚ), 3].getD j 0)
          [(3 : ℚ), 3].length i| < thomasEps) →
      ∃ msg, ThomasSolver [(1 : ℚ)] [2, 2] [1] [3, 3] = .error (.CalculationError msg)) :=
  thomas_solver_spec [1] [2, 2] [1] [3, 3] rfl rfl rfl

theorem ivBracket_succ_ne_none (f : ℝ → ℝ) (fuel : ℕ) :
    ∀ upper : ℝ, 100 < upper * 2 ^ fuel → ivBracket f (fuel + 1) upper ≠ none := by
  induction fuel with
  | zero =>
    intro upper h
    rw [pow_zero, mul_one] at h
    rw [ivBracket]
    by_cases h1 : f upper < 0
    · rw [if_pos h1, if_pos (by linarith : (100 : ℝ) < upper * 2)]
      simp
    · rw [if_neg h1]
      simp
  | succ n ih =>
    intro upper h
    rw [ivBracket]
    by_cases h1 : f upper < 0
    · rw [if_pos h1]
      by_cases h2 : (100 : ℝ) < upper * 2
      · rw [if_pos h2]
        simp
      · rw [if_neg h2]
        exact ih (upper * 2)
          (by rw [show upper * 2 * 2 ^ n = upper * 2 ^ (n + 1) from by ring]; exact h)
    · rw [if_neg h1]
      simp

/-- C10.  The implied-volatility search terminates on every input: with
bracket fuel 8 (enough for the at most 7 doublings the `100.0` limit allows
from the initial upper bound `1.0`) and the fixed bisection budget of 1000
iterations, `black_scholes_call_implied_vol` always produces a definite
outcome — an arbitrage-bound error, the convergence-failure error when no
bracket is found before the upper bound exceeds `100.0`, or a volatility.
The fuel-exhaustion marker `none` is unreachable, so the source's loops
cannot run forever. -/
theorem implied_vol_search_terminates (Φ : ℝ → ℝ) (S K r q T CallPrice : ℝ) :
    ∃ res, blackScholesCallImpliedVol Φ S K r q T CallPrice = some res := by
  simp only [blackScholesCallImpliedVol]
  by_cases harb : CallPrice < S * Real.exp (-q * T) - K * Real.exp (-r * T)
  · rw [if_pos harb]
    exact ⟨_, rfl⟩
  · rw [if_neg harb]
    have hb : ivBracket (fun sigma => bsEuropeanCall Φ S K r sigma q T - CallPrice) 8 1 ≠
        none :=
      ivBracket_succ_ne_none _ 7 1 (by norm_num)
    rcases hval : ivBracket (fun sigma => bsEuropeanCall Φ S K r sigma q T - CallPrice) 8 1
      with _ | exc
    · exact absurd hval hb
    · rcases exc with e | v
      · exact ⟨_, rfl⟩
      · exact ⟨_, rfl⟩

theorem thomasSolver_wrong_offdiag {α : Type} [LinearOrderedField α]
    (a b c d : List α) (h0 : d.length ≠ 0) (ha : a.length = d.length) :
    ThomasSolver a b c d =
      .error (.InvalidParameter "Thamos algorithm: the input dim of array not match") := by
  simp only [ThomasSolver]
  rw [if_neg h0, if_pos (Or.inr (Or.inl (by omega)))]

theorem crankNicolsonStepBack_fails (prm : CommonParams) (payoff : ℝ → ℝ)
    (ex : ExerciseRule) (sMin dx dt currentT : ℝ) (useLog : Bool)
    (lower upper : ℝ) (next : List ℝ) (hn : next.length ≠ 0) :
    crankNicolsonStepBack prm payoff ex sMin dx dt currentT useLog lower upper next =
      .error (.InvalidParameter "Thamos algorithm: the input dim of array not match") := by
  simp only [crankNicolsonStepBack]
  rw [thomasSolver_wrong_offdiag _ _ _ _ (by simpa using hn) (by simp)]

theorem pdeStepAt_cn_fails (e : PDEEngine) (prm : CommonParams) (payoff : ℝ → ℝ)
    (ex : ExerciseRule) (sMin dx dt : ℝ) (nIdx : ℕ) (next : List ℝ) (lv uv : ℝ)
    (hm : e.method = .CrankNicolson) (hn : next.length ≠ 0)
    (hlo : ∀ t, e.boundaryCondition.lowerBoundary t = .ok lv)
    (hup : ∀ t, e.boundaryCondition.upperBoundary t = .ok uv) :
    pdeStepAt e prm payoff ex sMin dx dt nIdx next =
      .error (.InvalidParameter "Thamos algorithm: the input dim of array not match") := by
  simp only [pdeStepAt, hlo, hup, hm]
  exact crankNicolsonStepBack_fails prm payoff ex sMin dx dt _ e.useLogSpace lv uv next hn

theorem pde_cn_price_fails (e : PDEEngine) (prm : CommonParams) (payoff : ℝ → ℝ)
    (ex : ExerciseRule) (lv uv : ℝ)
    (hm : e.method = .CrankNicolson) (ht : e.tSteps ≠ 0)
    (hlo : ∀ t, e.boundaryCondition.lowerBoundary t = .ok lv)
    (hup : ∀ t, e.boundaryCondition.upperBoundary t = .ok uv) :
    e.calculatePrice prm payoff ex =
      .error (.InvalidParameter "Thamos algorithm: the input dim of array not match") := by
  simp only [PDEEngine.calculatePrice]
  rw [if_neg (by simp [hm])]
  obtain ⟨k, hk⟩ : ∃ k, e.tSteps = k + 1 := ⟨e.tSteps - 1, by omega⟩
  rw [hk]
  simp only [pdeBackward]
  rw [pdeStepAt_cn_fails e prm payoff ex _ _ _ k _ lv uv hm (by simp) hlo hup]

/-- C3 (code bug).  At a valid configuration, the Crank-Nicolson scheme never
produces a single time layer: `CrankNicolsonMethod::step_back` hands
`ThomasSolver` off-diagonal arrays of length `n` where the solver requires
length `n - 1`, so every pricing call fails with the solver's dimension error
and no layer ever holds the claimed boundary values or exercise decisions.
(The same step also copies the next layer's edge values over both boundary
nodes, discarding the engine's `BoundaryCondition` values, and the explicit
scheme computes its node spot from `s_min + i*dt` instead of `s_min + i*dx`;
both slips are recorded in the step models.) -/
theorem pde_crank_nicolson_always_errors :
    PDEEngine.calculatePrice ⟨50, 50, .CrankNicolson, false, constBoundary⟩
      ⟨100, 1/20, 1/5, 0, 1⟩ (fun s => max (s - 100) 0) americanExercise =
      .error (.InvalidParameter "Thamos algorithm: the input dim of array not match") :=
  pde_cn_price_fails ⟨50, 50, .CrankNicolson, false, constBoundary⟩
    ⟨100, 1/20, 1/5, 0, 1⟩ (fun s => max (s - 100) 0) americanExercise 0 190 rfl
    (by norm_num) (fun _ => rfl) (fun _ => rfl)

theorem binomValues_succ (e : BinomialEngine) (prm : CommonParams) (payoff : ℝ → ℝ)
    (ex : ExerciseRule) (k i : ℕ) :
    binomValues e prm payoff ex (k + 1) i =
      if ex.shouldExercise (prm.timeToMaturity - ((e.steps - (k + 1) : ℕ) : ℝ) * crrDt e prm)
          (prm.spot * crrU e prm ^ ((2 * i : ℤ) - ((e.steps - (k + 1) : ℕ) : ℤ)))
          (payoff (prm.spot * crrU e prm ^ ((2 * i : ℤ) - ((e.steps - (k + 1) : ℕ) : ℤ))))
          (crrPu e prm * binomValues e prm payoff ex k (i + 1) +
            crrPd e prm * binomValues e prm payoff ex k i)
      then payoff (prm.spot * crrU e prm ^ ((2 * i : ℤ) - ((e.steps - (k + 1) : ℕ) : ℤ)))
      else crrPu e prm * binomValues e prm payoff ex k (i + 1) +
        crrPd e prm * binomValues e prm payoff ex k i := rfl

theorem ce_crrDt (r : ℝ) : crrDt ⟨10⟩ ⟨1, r, 1, 0, 10⟩ = 1 := by
  norm_num [crrDt]

theorem ce_crrU (r : ℝ) : crrU ⟨10⟩ ⟨1, r, 1, 0, 10⟩ = Real.exp 1 := by
  rw [crrU, ce_crrDt, Real.sqrt_one]
  norm_num

theorem ce_crrD (r : ℝ) : crrD ⟨10⟩ ⟨1, r, 1, 0, 10⟩ = (Real.exp 1)⁻¹ := by
  rw [crrD, ce_crrU, one_div]

theorem ce_crrDisc (r : ℝ) : crrDisc ⟨10⟩ ⟨1, r, 1, 0, 10⟩ = Real.exp (-r) := by
  rw [crrDisc, ce_crrDt]
  norm_num

theorem ce_crrP (r : ℝ) : crrP ⟨10⟩ ⟨1, r, 1, 0, 10⟩ =
    (Real.exp r - (Real.exp 1)⁻¹) / (Real.exp 1 - (Real.exp 1)⁻¹) := by
  rw [crrP, ce_crrDt, ce_crrD, ce_crrU]
  norm_num

theorem ce_upow (r : ℝ) (m : ℤ) :
    crrU ⟨10⟩ ⟨1, r, 1, 0, 10⟩ ^ m = Real.exp m := by
  rw [ce_crrU, ← Real.rpow_intCast (Real.exp 1) m, Real.exp_one_rpow]

theorem cePayoff_exp (y : ℝ) : cePayoff (Real.exp y) = if y < -9 then 1 else 0 := by
  simp only [cePayoff]
  by_cases h : y < -9
  · rw [if_pos (Real.exp_lt_exp.mpr h), if_pos h]
  · rw [if_neg (fun hc => h (Real.exp_lt_exp.mp hc)), if_neg h]

theorem ce_termSpot (r : ℝ) (i : ℕ) :
    binomTermSpot ⟨10⟩ ⟨1, r, 1, 0, 10⟩ i = Real.exp (2 * i - 10) := by
  rw [binomTermSpot_eq, ce_crrD, ce_crrU, ← Real.exp_neg, ← Real.exp_nat_mul,
    ← Real.exp_nat_mul, one_mul, ← Real.exp_add]
  congr 1
  push_cast
  ring

theorem ce_terminal (r : ℝ) (ex : ExerciseRule) (i : ℕ) :
    binomValues ⟨10⟩ ⟨1, r, 1, 0, 10⟩ cePayoff ex 0 i = if i = 0 then 1 else 0 := by
  show cePayoff (binomTermSpot ⟨10⟩ ⟨1, r, 1, 0, 10⟩ i) = _
  rw [ce_termSpot, cePayoff_exp]
  by_cases h : i = 0
  · subst h
    norm_num
  · rw [if_neg h, if_neg]
    have h1 : (1 : ℝ) ≤ (i : ℝ) := by
      have := Nat.one_le_iff_ne_zero.mpr h
      exact_mod_cast this
    intro hc
    linarith

theorem americanExercise_shouldExercise (t s intr cont : ℝ) :
    americanExercise.shouldExercise t s intr cont = decide (cont < intr) := rfl

theorem europeanExercise_shouldExercise (t s intr cont : ℝ) :
    europeanExercise.shouldExercise t s intr cont = decide (t < 1e-9) := rfl

theorem ce_one_lt_exp_one : (1 : ℝ) < Real.exp 1 := by
  have h := Real.add_one_le_exp (1 : ℝ)
  linarith

theorem ce_den_pos : (0 : ℝ) < Real.exp 1 - (Real.exp 1)⁻¹ := by
  have h1 := ce_one_lt_exp_one
  have h2 : (Real.exp 1)⁻¹ < 1 := inv_lt_one ce_one_lt_exp_one
  linarith

theorem ce_p_gt_one : 1 < crrP ⟨10⟩ ⟨1, 2, 1, 0, 10⟩ := by
  rw [ce_crrP, lt_div_iff ce_den_pos, one_mul]
  have h : Real.exp 1 < Real.exp 2 := Real.exp_lt_exp.mpr (by norm_num)
  linarith

theorem ce_pd_neg : crrPd ⟨10⟩ ⟨1, 2, 1, 0, 10⟩ < 0 := by
  rw [crrPd, ce_crrDisc]
  have h1 := ce_p_gt_one
  have h2 : (0 : ℝ) < Real.exp (-2) := Real.exp_pos _
  nlinarith

theorem cePayoff_exp_intCast (m : ℤ) (hm : -9 ≤ m) :
    cePayoff (Real.exp (m : ℝ)) = 0 := by
  rw [cePayoff_exp, if_neg]
  intro hcon
  have h : ((-9 : ℤ) : ℝ) ≤ (m : ℝ) := by exact_mod_cast hm
  push_cast at h
  linarith

theorem ce_amer_zero : ∀ k, 1 ≤ k → ∀ i,
    binomValues ⟨10⟩ ⟨1, 2, 1, 0, 10⟩ cePayoff americanExercise k i = 0 := by
  intro k hk
  induction k, hk using Nat.le_induction with
  | base =>
    intro i
    rw [show (1 : ℕ) = 0 + 1 from rfl, binomValues_succ, ce_terminal, ce_terminal]
    simp only [show (⟨10⟩ : BinomialEngine).steps = 10 from rfl,
      show (⟨1, 2, 1, 0, 10⟩ : CommonParams).spot = 1 from rfl, one_mul, ce_upow]
    rw [cePayoff_exp_intCast _ (by omega)]
    rw [if_neg (Nat.succ_ne_zero i), mul_zero]
    by_cases hi : i = 0
    · subst hi
      rw [if_pos (rfl : (0 : ℕ) = 0), mul_one]
      simp only [americanExercise, decide_eq_true_eq]
      rw [if_pos (by simpa using ce_pd_neg)]
    · rw [if_neg hi, mul_zero]
      simp
  | succ n hn ih =>
    intro i
    rw [binomValues_succ, ih i, ih (i + 1), mul_zero, mul_zero, add_zero]
    simp only [show (⟨10⟩ : BinomialEngine).steps = 10 from rfl,
      show (⟨1, 2, 1, 0, 10⟩ : CommonParams).spot = 1 from rfl, one_mul, ce_upow]
    rw [cePayoff_exp_intCast _ (by omega), ite_self]

theorem ce_euro_layers : ∀ k, k ≤ 10 → ∀ i,
    binomValues ⟨10⟩ ⟨1, 2, 1, 0, 10⟩ cePayoff europeanExercise k i =
      crrPd ⟨10⟩ ⟨1, 2, 1, 0, 10⟩ ^ k * (if i = 0 then 1 else 0) := by
  intro k
  induction k with
  | zero =>
    intro _ i
    rw [ce_terminal, pow_zero, one_mul]
  | succ n ih =>
    intro hn i
    rw [binomValues_succ, ih (by omega) i, ih (by omega) (i + 1)]
    simp only [show (⟨10⟩ : BinomialEngine).steps = 10 from rfl,
      show (⟨1, 2, 1, 0, 10⟩ : CommonParams).timeToMaturity = 10 from rfl,
      ce_crrDt, mul_one, europeanExercise, decide_eq_true_eq]
    rw [if_neg ?hcond]
    case hcond =>
      have hc : ((10 - (n + 1) : ℕ) : ℝ) ≤ 9 := by
        exact_mod_cast (by omega : (10 - (n + 1) : ℕ) ≤ 9)
      intro hcon
      norm_num at hcon
      linarith
    by_cases hi : i = 0
    · subst hi
      rw [if_neg (Nat.succ_ne_zero 0), if_pos (rfl : (0 : ℕ) = 0)]
      ring
    · rw [if_neg (Nat.succ_ne_zero i), if_neg hi]
      ring

/-- C4 counterexample.  For the validated parameters spot 1, r = 2, sigma = 1,
q = 0, T = 10 and a 10-step engine, the risk-neutral weight `p` exceeds 1, the
pre-discounted down weight is negative, and for the payoff paying 1 only at
the bottom terminal node the American-exercise price (0) is strictly below the
European-exercise price `((1-p)·exp(-2))^10 > 0`. -/
theorem binomial_american_lt_european :
    CommonParams.new 1 2 1 0 10 = .ok ⟨1, 2, 1, 0, 10⟩ ∧
    BinomialEngine.new 10 = .ok ⟨10⟩ ∧
    BinomialEngine.price ⟨10⟩ ⟨1, 2, 1, 0, 10⟩ cePayoff americanExercise <
      BinomialEngine.price ⟨10⟩ ⟨1, 2, 1, 0, 10⟩ cePayoff europeanExercise := by
  refine ⟨by norm_num [CommonParams.new], by norm_num [BinomialEngine.new], ?_⟩
  rw [BinomialEngine.price, BinomialEngine.price]
  rw [if_neg (by norm_num : ¬(⟨1, 2, 1, 0, 10⟩ : CommonParams).timeToMaturity ≤ 0),
    if_neg (by norm_num : ¬(⟨1, 2, 1, 0, 10⟩ : CommonParams).timeToMaturity ≤ 0)]
  rw [show (⟨10⟩ : BinomialEngine).steps = 10 from rfl]
  rw [ce_amer_zero 10 (by norm_num) 0, ce_euro_layers 10 (by norm_num) 0]
  rw [if_pos rfl, mul_one]
  exact Even.pow_pos (by decide) (ne_of_lt ce_pd_neg)

/-- C4 as amended.  Whenever the risk-neutral weight `p` of the lattice lies
in `[0, 1]` (so both pre-discounted weights are nonnegative), the binomial
engine's American-exercise price dominates its European-exercise price for
every market-parameter bundle and every payoff. -/
theorem binomial_american_ge_european (e : BinomialEngine) (prm : CommonParams)
    (payoff : ℝ → ℝ) (hp0 : 0 ≤ crrP e prm) (hp1 : crrP e prm ≤ 1) :
    BinomialEngine.price e prm payoff europeanExercise ≤
      BinomialEngine.price e prm payoff americanExercise := by
  have hdisc : (0 : ℝ) ≤ crrDisc e prm := (Real.exp_pos _).le
  have hpu : 0 ≤ crrPu e prm := mul_nonneg hp0 hdisc
  have hpd : 0 ≤ crrPd e prm := mul_nonneg (by linarith) hdisc
  have hmain : ∀ k i, binomValues e prm payoff europeanExercise k i ≤
      binomValues e prm payoff americanExercise k i := by
    intro k
    induction k with
    | zero =>
      intro i
      exact le_of_eq rfl
    | succ n ih =>
      intro i
      rw [binomValues_succ, binomValues_succ]
      have hcont : crrPu e prm * binomValues e prm payoff europeanExercise n (i + 1) +
          crrPd e prm * binomValues e prm payoff europeanExercise n i ≤
          crrPu e prm * binomValues e prm payoff americanExercise n (i + 1) +
          crrPd e prm * binomValues e prm payoff americanExercise n i :=
        add_le_add (mul_le_mul_of_nonneg_left (ih (i + 1)) hpu)
          (mul_le_mul_of_nonneg_left (ih i) hpd)
      simp only [americanExercise_shouldExercise, europeanExercise_shouldExercise,
        decide_eq_true_eq]
      split_ifs with h1 h2 h2
      · exact le_refl _
      · linarith
      · linarith
      · exact hcont
  rw [BinomialEngine.price, BinomialEngine.price]
  by_cases ht : prm.timeToMaturity ≤ 0
  · rw [if_pos ht, if_pos ht]
  · rw [if_neg ht, if_neg ht]
    exact hmain e.steps 0

/-- Witness for C4 as amended at concrete inputs (r = q = 0, sigma = 1,
T = 10, 10 steps, where `p = (1 - 1/e)/(e - 1/e)` lies in `[0, 1]`). -/
theorem binomial_american_ge_european_witness :
    0 ≤ crrP ⟨10⟩ ⟨1, 0, 1, 0, 10⟩ ∧ crrP ⟨10⟩ ⟨1, 0, 1, 0, 10⟩ ≤ 1 ∧
    BinomialEngine.price ⟨10⟩ ⟨1, 0, 1, 0, 10⟩ (fun x => x) europeanExercise ≤
      BinomialEngine.price ⟨10⟩ ⟨1, 0, 1, 0, 10⟩ (fun x => x) americanExercise := by
  have hinv : (Real.exp 1)⁻¹ < 1 := inv_lt_one ce_one_lt_exp_one
  have h0 : 0 ≤ crrP ⟨10⟩ ⟨1, 0, 1, 0, 10⟩ := by
    rw [ce_crrP, Real.exp_zero]
    exact div_nonneg (by linarith) ce_den_pos.le
  have h1 : crrP ⟨10⟩ ⟨1, 0, 1, 0, 10⟩ ≤ 1 := by
    rw [ce_crrP, Real.exp_zero, div_le_one ce_den_pos]
    have := ce_one_lt_exp_one
    linarith
  exact ⟨h0, h1, binomial_american_ge_european ⟨10⟩ ⟨1, 0, 1, 0, 10⟩ (fun x => x) h0 h1⟩

end OptionRS
